import Mathlib

/-!
A verification development of go-slate.

Shallow embedding of the script bundler (`loadJS`), the change-aware copier
(`updateTarget`), the live monitor loop (`monitor`), the table-of-contents
writer (`produceTOC`) and the front-matter scanner and parameter overrides of
`load`, followed by the theorems about them.

Conventions.
* A file is the list of lines `bufio.Scanner` yields for it.
* A `bytes.Buffer` is the `String` written so far.
* Go's `path` / `path/filepath` functions are embedded for slash-separated
  paths (the lexical algorithm of `path.Clean`).
* `loadJS` is embedded twice: `loadJSPath` over the source tree by path,
  opening `path.Join("javascripts", source)`, and `loadJS` over the files by
  source name; `loadJSPath_eq` shows that they agree.
-/

set_option maxRecDepth 100000

namespace Slate

/-! ## Go `path` helpers (lexical, slash separated) -/

/-- Slash-separated components of a path: `a//b` gives `a`, the empty
component and `b`. -/
def splitSlash : List Char → List (List Char)
  | [] => [[]]
  | c :: cs =>
    if c = '/' then [] :: splitSlash cs
    else
      match splitSlash cs with
      | [] => [[c]]
      | x :: xs => (c :: x) :: xs

/-- One component of `path.Clean`: the stack holds the components kept so
far, last one first. Empty and `.` components are dropped; `..` removes the
component before it, is kept at the front of an unrooted path and dropped at
the front of a rooted one. -/
def cleanStep (rooted : Bool) (stack : List (List Char)) (comp : List Char) :
    List (List Char) :=
  if comp = [] ∨ comp = ['.'] then stack
  else if comp = ['.', '.'] then
    match stack with
    | [] => if rooted then [] else [comp]
    | top :: rest => if top = ['.', '.'] then comp :: stack else rest
  else comp :: stack

/-- Components joined with single slashes. -/
def joinSlash : List (List Char) → List Char
  | [] => []
  | [x] => x
  | x :: y :: rest => x ++ '/' :: joinSlash (y :: rest)

/-- Go `path.Clean` (and `filepath.Clean` with `/` as separator). -/
def pathClean (p : String) : String :=
  match p.data with
  | [] => "."
  | c :: cs =>
    let rooted : Bool := c = '/'
    let stack := (splitSlash (c :: cs)).foldl (cleanStep rooted) []
    let out := (if rooted then ['/'] else []) ++ joinSlash stack.reverse
    if out = [] then "." else String.mk out

/-- Go `path.Dir`: everything up to the final slash, cleaned. -/
def pathDir (p : String) : String :=
  pathClean (String.mk ((p.data.reverse.dropWhile (fun c => c ≠ '/')).reverse))

/-- Go `filepath.Join` of two elements: empty elements are ignored, the rest
is joined with a slash and cleaned. -/
def filepathJoin (a b : String) : String :=
  if a ≠ "" then pathClean (a ++ "/" ++ b)
  else if b ≠ "" then pathClean b
  else ""

/-! ## The script bundler -/

/-- The prefix a require directive starts with. -/
def requirePrefix : List Char := "//= require ".data

/-- The rest of `s` after the prefix `p`, when `s` starts with `p`. -/
def stripPrefix : List Char → List Char → Option (List Char)
  | [], s => some s
  | _ :: _, [] => none
  | p :: ps, c :: cs => if p = c then stripPrefix ps cs else none

/-- The regular expression `^//= require (.+)$` applied to one line, as
`jsReqRE.FindAllStringSubmatch(line, -1)` followed by `m[0][1]`: the captured
path when the line matches, `none` when there is no match. -/
def jsReqRE (line : String) : Option String :=
  match stripPrefix requirePrefix line.data with
  | none => none
  | some rest => if rest ≠ [] ∧ '\n' ∉ rest then some (String.mk rest) else none

/-- The file name a directive resolves to:
`filepath.Clean(filepath.Join(dir, m[0][1]) + ".js")`. -/
def required (dir m : String) : String :=
  pathClean (filepathJoin dir m ++ ".js")

/-- The script files of the source file system: for each source name `s` the
lines the scanner reads from `fs.Open(path.Join("javascripts", s))`. A name
without an entry fails to open. `PathFS.scripts` builds this view from the
source tree by path. -/
abbrev FileSystem := List (String × List String)

/-- Opening a script file by source name. -/
def FileSystem.open (fs : FileSystem) (source : String) : Option (List String) :=
  fs.lookup source

/-- Errors of `loadJS`: the error of `fs.Open`, and the exhausted recursion
budget of the embedding. -/
inductive LoadError where
  | openFailed (source : String)
  | outOfFuel
  deriving DecidableEq, Repr

/-- The two out-parameters of `loadJS`: the buffer and the included list. -/
structure LoadState where
  buffer : String
  loaded : List String
  deriving DecidableEq, Repr

/-- The scanner loop of `loadJS` over the remaining lines of one file; `flg`
is the flag of the source, `rec` the recursive call of `loadJS`. -/
def scanLines (rec : String → LoadState → Except LoadError LoadState) (dir : String) :
    List String → Bool → LoadState → Except LoadError LoadState
  | [], _, st => .ok st
  | line :: rest, flg, st =>
    if flg then
      match jsReqRE line with
      | some m =>
        match rec (required dir m) st with
        | .error e => .error e
        | .ok st1 => scanLines rec dir rest true st1
      | none =>
        scanLines rec dir rest false { st with buffer := st.buffer ++ line ++ "\n" }
    else
      scanLines rec dir rest false { st with buffer := st.buffer ++ line ++ "\n" }

/-- The function `loadJS`: return at once when `source` is already in the
included list, otherwise append it, open the file and scan its lines. The
first argument bounds the depth of the recursion. -/
def loadJS (fs : FileSystem) : Nat → String → LoadState → Except LoadError LoadState
  | 0, _, _ => .error .outOfFuel
  | fuel + 1, source, st =>
    if source ∈ st.loaded then .ok st
    else
      let st1 : LoadState := { st with loaded := st.loaded ++ [source] }
      match fs.open source with
      | none => .error (.openFailed source)
      | some lines => scanLines (loadJS fs fuel) (pathDir source) lines true st1

/-- The call of `produceJavaScript`: an empty buffer and an empty included
list; the recursion budget is one more than the number of files. -/
def bundle (fs : FileSystem) (entry : String) : Except LoadError LoadState :=
  loadJS fs (fs.length + 1) entry { buffer := "", loaded := [] }

/-- A chain: `a.js` requires `lib/b.js`, which requires `c.js`. -/
def chainFS : FileSystem :=
  [("a.js", ["//= require lib/b", "var a;"]),
   ("lib/b.js", ["//= require ../c", "var b;"]),
   ("c.js", ["var c;"])]

/-- A rank that decreases along the edges of `chainFS`. -/
def chainRank (f : String) : Nat :=
  if f = "a.js" then 2 else if f = "lib/b.js" then 1 else 0

/-- A file with a blank line and a directive after its leading directive. -/
def blankFS : FileSystem :=
  [("a.js", ["//= require b", "", "//= require c", "var a;"]),
   ("b.js", ["var b;"]),
   ("c.js", ["var c;"])]

/-! ### Specification side of the bundler -/

/-- Concatenation of a list of strings, in order. -/
def concatS : List String → String
  | [] => ""
  | x :: xs => x ++ concatS xs

/-- The lines as the loop writes them: each followed by a newline. -/
def writeLines (ls : List String) : String :=
  concatS (ls.map (fun l => l ++ "\n"))

/-- The captured paths of the maximal leading run of directive lines. -/
def directives : List String → List String
  | [] => []
  | line :: rest =>
    match jsReqRE line with
    | some m => m :: directives rest
    | none => []

/-- The lines from the first one that is not a directive onward. -/
def bodyLines : List String → List String
  | [] => []
  | line :: rest =>
    match jsReqRE line with
    | some _ => bodyLines rest
    | none => line :: rest

/-- The files a file requires, in the order of its directives. -/
def requires (fs : FileSystem) (f : String) : List String :=
  match fs.open f with
  | none => []
  | some lines => (directives lines).map (required (pathDir f))

/-- The body of a file: what its own lines contribute to a bundle. -/
def body (fs : FileSystem) (f : String) : String :=
  match fs.open f with
  | none => ""
  | some lines => writeLines (bodyLines lines)

/-- The require graph: `Edge fs f g` when `f` has a leading directive that
resolves to `g`. -/
def Edge (fs : FileSystem) (f g : String) : Prop := g ∈ requires fs f

/-- Reachability through require directives. -/
def Reach (fs : FileSystem) : String → String → Prop :=
  Relation.ReflTransGen (Edge fs)

/-- The require graph has no cycle. -/
def Acyclic (fs : FileSystem) : Prop :=
  ∀ f, ¬ Relation.TransGen (Edge fs) f f

/-- Every required file exists. -/
def Closed (fs : FileSystem) : Prop :=
  ∀ f g, Edge fs f g → (fs.open g).isSome = true

/-- The file `g` stands before `f` in the list `order`. -/
def Before (order : List String) (g f : String) : Prop :=
  ∃ l1 l2 l3, order = l1 ++ g :: (l2 ++ f :: l3)

/-- Running the recursive call over a list of file names, threading the
state and stopping at the first error. -/
def loadAll (rec : String → LoadState → Except LoadError LoadState) :
    List String → LoadState → Except LoadError LoadState
  | [], st => .ok st
  | r :: rs, st =>
    match rec r st with
    | .error e => .error e
    | .ok st1 => loadAll rec rs st1

/-- Appending text to the buffer of a result. -/
def thenWrite (r : Except LoadError LoadState) (text : String) :
    Except LoadError LoadState :=
  match r with
  | .error e => .error e
  | .ok st => .ok { st with buffer := st.buffer ++ text }

/-- Number of files of `fs` not yet in the included list. -/
def pending (fs : FileSystem) (loaded : List String) : Nat :=
  (fs.map Prod.fst).countP (fun f => decide (f ∉ loaded))

/-- Decidable check of `Closed`. -/
def closedB (fs : FileSystem) : Bool :=
  fs.all (fun e => ((directives e.2).map (required (pathDir e.1))).all
    (fun g => (fs.open g).isSome))

/-- Decidable check that `rank` decreases along every require edge. -/
def rankedB (fs : FileSystem) (rank : String → Nat) : Bool :=
  fs.all (fun e => ((directives e.2).map (required (pathDir e.1))).all
    (fun g => decide (rank g < rank e.1)))

/-- What a run of `loadJS` calls from state `st` to state `st1` over the `roots`
has done, in terms of the list `order` of the files whose bodies it wrote. -/
structure Visit (fs : FileSystem) (roots : List String) (st st1 : LoadState)
    (order : List String) : Prop where
  buffer_eq : st1.buffer = st.buffer ++ concatS (order.map (body fs))
  loaded_eq : ∃ pre, st1.loaded = st.loaded ++ pre ∧ pre.Perm order
  nodup : order.Nodup
  fresh : ∀ f ∈ order, f ∉ st.loaded
  opens : ∀ f ∈ order, (fs.open f).isSome = true
  reach : ∀ f ∈ order, ∃ r ∈ roots, Reach fs r f
  roots_done : ∀ r ∈ roots, r ∈ st.loaded ∨ r ∈ order
  edges : ∀ f ∈ order, ∀ g, Edge fs f g →
    g ∈ st.loaded ∨ (g ∈ order ∧ (Before order g f ∨ Reach fs g f))

/-! ## The change-aware copier -/

/-- What `Stat` reports of a file: `Size()` and `ModTime()`. A modification
time is a `time.Time` value and is only ever compared with `==`: a number
stands for the whole value (instant, location and monotonic reading), two
numbers are equal exactly when `==` holds. -/
structure FileInfo where
  size : Nat
  modTime : Nat
  deriving DecidableEq, Repr

/-- A stored file: its bytes and its modification time. -/
structure FileData where
  data : List UInt8
  modTime : Nat
  deriving DecidableEq, Repr

/-- A file system as the list of its files by name; the source file system
and the target (`afero`) file system are both of this shape. -/
abbrev Tree := List (String × FileData)

/-- The call `Stat(name)`: size and modification time of an existing file. -/
def Tree.stat (t : Tree) (name : String) : Option FileInfo :=
  (t.lookup name).map fun f => { size := f.data.length, modTime := f.modTime }

/-- The call `Remove(name)`. -/
def Tree.remove (t : Tree) (name : String) : Tree :=
  t.filter fun e => e.1 ≠ name

/-- Creating or overwriting the file `name`. -/
def Tree.put (t : Tree) (name : String) (f : FileData) : Tree :=
  (name, f) :: t.remove name

/-- The call `Rename(old, new)`: the file keeps its bytes and its
modification time; `none` when `old` does not exist. -/
def Tree.rename (t : Tree) (old new : String) : Option Tree :=
  match t.lookup old with
  | none => none
  | some f => some ((t.remove old).put new f)

/-- What the target file system does during one call, as far as the caller
cannot decide it: the clock it stamps on the files it writes, the base name
of the file `TempFile` creates (`none` when `TempFile` fails), and whether
`io.Copy` or `Rename` fail. -/
structure TargetEnv where
  now : Nat
  temp : Option String
  copyFails : Bool
  renameFails : Bool
  deriving DecidableEq, Repr

/-- How a call ends: `nil`, a returned error, or a run-time panic. -/
inductive Outcome where
  | ok
  | error (msg : String)
  | panic (msg : String)
  deriving DecidableEq, Repr

/-- The function `updateTarget`. The result is the outcome and the target
file system the call leaves behind; the deferred `Remove(dstName)` runs on
every return after `TempFile`. The skip test is the equality of the two
sizes and the `==` of the two `ModTime()` values. -/
def updateTarget (name : String) (fs : Tree) (target : Tree) (env : TargetEnv) :
    Outcome × Tree :=
  match fs.stat name with
  | none => (.error "stat", target)
  | some fi =>
    if target.stat name = some fi then (.ok, target)
    else
      match env.temp with
      | none => (.panic "nil dereference: dst.Name()", target)
      | some base =>
        let dstName := filepathJoin (pathDir name) base
        let target1 := target.put dstName { data := [], modTime := env.now }
        match fs.lookup name with
        | none => (.error "open", target1.remove dstName)
        | some src =>
          if env.copyFails then (.error "copy", target1.remove dstName)
          else
            let target2 := target1.put dstName { data := src.data, modTime := env.now }
            if env.renameFails then (.error "rename", target2.remove dstName)
            else
              match target2.rename dstName name with
              | none => (.error "rename", target2.remove dstName)
              | some target3 => (.ok, target3.remove dstName)

/-- A source tree with one image. -/
def logoSource : Tree :=
  [("images/logo.png", { data := [137, 80, 78], modTime := 100 })]

/-- A fault-free call at time `now` whose temporary file is `base`. -/
def quietEnv (now : Nat) (base : String) : TargetEnv :=
  { now := now, temp := some base, copyFails := false, renameFails := false }

/-! ## The live monitor -/

/-- The duration `time.Second`, in nanoseconds. -/
def second : Nat := 1000000000

/-- The bit `fsnotify.Create` of an event's `Op`. -/
def opCreate : Nat := 1

/-- The bit `fsnotify.Remove` of an event's `Op`. -/
def opRemove : Nat := 4

/-- What the `select` of the loop received: the timer channel, or a watcher
event with its `Op` bits and its name. -/
inductive WakeKind where
  | timer
  | event (op : Nat) (name : String)
  deriving DecidableEq, Repr

/-- One iteration of the loop as the environment decides it: what the
`select` received, the clock read by `time.Now()` after it, and what
`Slateficate` returns should this iteration call it (`none` for an error,
otherwise the tree it built). -/
structure Wake (σ : Type) where
  kind : WakeKind
  now : Nat
  build : Option σ

/-- The variables of `monitor`: `ts`, the timer `tm` (the instant it is set
to fire, `none` when stopped or already received), the watch set, the
published `*httpFs`, and a log of the instants at which `Slateficate` was
called, oldest first. -/
structure MonState (σ : Type) where
  ts : Nat
  timer : Option Nat
  watched : List String
  httpFs : σ
  rebuilds : List Nat

/-- The `select` statement: a received timer is no longer armed; a `Remove`
event drops the name from the watch set, a `Create` event adds it. -/
def monitorSelect {σ : Type} (s : MonState σ) (kind : WakeKind) : MonState σ :=
  match kind with
  | .timer => { s with timer := none }
  | .event op name =>
    if op &&& opRemove = opRemove then { s with watched := s.watched.erase name }
    else if op &&& opCreate = opCreate then { s with watched := s.watched ++ [name] }
    else s

/-- One iteration of the loop of `monitor`. When `now.After(ts)`, `ts` moves
to two seconds after `now`, `Slateficate` runs, `*httpFs` is replaced if it
returned no error, and the timer is stopped; otherwise the timer is reset to
fire `ts.Sub(now)` from `now`, that is at `ts`. -/
def monitorStep {σ : Type} (s : MonState σ) (w : Wake σ) : MonState σ :=
  let s1 := monitorSelect s w.kind
  if s1.ts < w.now then
    { s1 with
      ts := w.now + 2 * second
      rebuilds := s1.rebuilds ++ [w.now]
      httpFs := match w.build with
        | none => s1.httpFs
        | some fs => fs
      timer := none }
  else
    { s1 with timer := some s1.ts }

/-- Whether the `select` can receive this: an event at any time, the timer
only when it is armed and its instant has come. -/
def Wake.admissible {σ : Type} (s : MonState σ) (w : Wake σ) : Bool :=
  match w.kind with
  | .event _ _ => true
  | .timer =>
    match s.timer with
    | none => false
    | some d => decide (d ≤ w.now)

/-- Whether the wake-up is a watcher event. -/
def Wake.isEvent {σ : Type} (w : Wake σ) : Bool :=
  match w.kind with
  | .event _ _ => true
  | .timer => false

/-- The loop of `monitor` over a sequence of wake-ups; `none` when one of
them cannot be received in the state it meets. -/
def monitorRun {σ : Type} : MonState σ → List (Wake σ) → Option (MonState σ)
  | s, [] => some s
  | s, w :: ws => if w.admissible s then monitorRun (monitorStep s w) ws else none

/-- The state in which `monitor` enters its loop at time `t0`: `ts` is
`time.Now()` and the timer is stopped. -/
def monitorInit {σ : Type} (t0 : Nat) (watched : List String) (httpFs : σ) : MonState σ :=
  { ts := t0, timer := none, watched := watched, httpFs := httpFs, rebuilds := [] }

/-- A write event on `index.html.md` at time `now`, with a rebuild that
succeeds and builds tree number `n`. -/
def writeEvent (now n : Nat) : Wake Nat :=
  { kind := .event 2 "index.html.md", now := now, build := some n }

/-- The timer firing at time `now`, with a rebuild that builds tree `n`. -/
def timerFire (now n : Nat) : Wake Nat :=
  { kind := .timer, now := now, build := some n }

/-! ## The table of contents -/

/-- A heading collected by the walk of `produceTOC`: `Level`, `HeadingID`
and the `Title` the walk captured for it. The walk keeps the headings that
are no title block and have `Level < 3`, in document order. -/
structure Heading where
  Level : Nat
  HeadingID : String
  Title : String
  deriving DecidableEq, Repr

/-- The replacement `html.EscapeString` makes for one character. -/
def escapeChar (c : Char) : List Char :=
  if c = '&' then "&amp;".data
  else if c = Char.ofNat 39 then "&#39;".data
  else if c = '<' then "&lt;".data
  else if c = '>' then "&gt;".data
  else if c = Char.ofNat 34 then "&#34;".data
  else [c]

/-- Character-wise escaping of a list of characters. -/
def escapeChars : List Char → List Char
  | [] => []
  | c :: cs => escapeChar c ++ escapeChars cs

/-- Go `html.EscapeString`. -/
def escapeString (s : String) : String :=
  String.mk (escapeChars s.data)

/-- The text of a loop `for i := lo; i < hi; i++` that writes `f i`. -/
def forRange (lo hi : Nat) (f : Nat → String) : String :=
  concatS ((List.range' lo (hi - lo)).map f)

/-- The list item written for a heading: the opening `<li>` and the anchor. -/
def tocItem (h : Heading) : String :=
  "<li>\n<a href=\"#" ++ h.HeadingID ++ "\" class=\"toc-h" ++ toString h.Level
    ++ " toc-link\" data-title=\"" ++ escapeString h.Title ++ "\">"
    ++ escapeString h.Title ++ "</a>\n"

/-- What the loop writes before the item of a heading of level `level`,
coming from `currentLevel`. -/
def tocTransition (currentLevel level : Nat) : String :=
  if currentLevel = level then "</li>\n"
  else if currentLevel ≠ 0 ∧ currentLevel < level then
    forRange currentLevel level fun i => "<ul class=\"toc-list-h" ++ toString (i + 1) ++ "\">\n"
  else if currentLevel > level then
    forRange level currentLevel fun _ => "</li>\n</ul>\n"
  else ""

/-- The loop of `produceTOC` over the headings, from `currentLevel` and the
buffer written so far. -/
def tocLoop : List Heading → Nat → String → Nat × String
  | [], currentLevel, buf => (currentLevel, buf)
  | h :: hs, currentLevel, buf =>
    tocLoop hs h.Level (buf ++ tocTransition currentLevel h.Level ++ tocItem h)

/-- The closing text after the loop. -/
def tocClose (currentLevel : Nat) : String :=
  (forRange 1 currentLevel fun _ => "</li>\n</ul>\n")
    ++ (if currentLevel > 0 then "</li>\n" else "")

/-- The function `produceTOC`, from the headings its walk collected. -/
def produceTOC (headings : List Heading) : String :=
  let r := tocLoop headings 0 ""
  r.2 ++ tocClose r.1

/-- The list tags of the markup. -/
inductive Tag where
  | liOpen
  | liClose
  | ulOpen
  | ulClose
  deriving DecidableEq, Repr

/-- The list tags of a text, left to right. -/
def tagsOf : List Char → List Tag
  | [] => []
  | c :: cs =>
    if (stripPrefix "<li>".data (c :: cs)).isSome then .liOpen :: tagsOf cs
    else if (stripPrefix "</li>".data (c :: cs)).isSome then .liClose :: tagsOf cs
    else if (stripPrefix "<ul".data (c :: cs)).isSome then .ulOpen :: tagsOf cs
    else if (stripPrefix "</ul>".data (c :: cs)).isSome then .ulClose :: tagsOf cs
    else tagsOf cs

/-- Well-nestedness of a tag sequence against the stack of open elements:
every closing tag closes the innermost open element and nothing stays open. -/
def nested : List Tag → List Tag → Bool
  | [], stack => stack.isEmpty
  | .liOpen :: ts, stack => nested ts (.liOpen :: stack)
  | .ulOpen :: ts, stack => nested ts (.ulOpen :: stack)
  | .liClose :: ts, .liOpen :: stack => nested ts stack
  | .ulClose :: ts, .ulOpen :: stack => nested ts stack
  | .liClose :: _, _ => false
  | .ulClose :: _, _ => false

/-- Whether the list markup of a text is well nested. -/
def wellNested (out : String) : Bool :=
  nested (tagsOf out.data) []

/-- The heading `# Intro`. -/
def introHeading : Heading := { Level := 1, HeadingID := "intro", Title := "Intro" }

/-- The heading `## Details`. -/
def detailsHeading : Heading := { Level := 2, HeadingID := "details", Title := "Details" }

/-- The heading `# Errors`. -/
def errorsHeading : Heading := { Level := 1, HeadingID := "errors", Title := "Errors" }

/-- The headings of `# Intro`, `## Details`, `# Errors`. -/
def sampleHeadings : List Heading := [introHeading, detailsHeading, errorsHeading]

/-! ## The content loader -/

/-- The front matter, `ContentParams`. -/
structure ContentParams where
  Title : String
  Search : Bool
  Highlight : String
  Langs : List String
  TocFooters : List String
  Includes : List String
  Style : String
  Logo : String
  RTLEnabled : Bool
  HTMLHead : String
  deriving DecidableEq, Repr

/-- The configuration, `Params`; a `*bool` is an `Option Bool`. -/
structure Params where
  MinifyHTML : Bool
  MinifyJS : Bool
  MinifyCSS : Bool
  StyleFile : String
  LogoFile : String
  Search : Option Bool
  RTL : Option Bool
  deriving DecidableEq, Repr

/-- The variables of the scanner loop of `load`: `state`, `preamble` and
`buf`. -/
structure ScanState where
  state : Nat
  preamble : String
  buf : String
  deriving DecidableEq, Repr

/-- One iteration of the scanner loop of `load`: the `switch` on `state`,
then, unless the case ended with `continue`, the line written to `buf`. -/
def scanStep (s : ScanState) (line : String) : ScanState :=
  match s.state with
  | 0 =>
    if line = "---" then { s with state := 1 }
    else { s with state := 2, buf := s.buf ++ line ++ "\n" }
  | 1 =>
    if line = "---" then { s with state := 2 }
    else { s with preamble := s.preamble ++ line ++ "\n" }
  | _ => { s with buf := s.buf ++ line ++ "\n" }

/-- The scanner loop of `load` over the lines of `index.html.md`. -/
def scanFrontMatter (lines : List String) : ScanState :=
  lines.foldl scanStep { state := 0, preamble := "", buf := "" }

/-- The overrides `load` applies to the parsed front matter: `LogoFile`
when not empty, `Search` and `RTL` when not nil. -/
def applyParams (params : Params) (c : ContentParams) : ContentParams :=
  let c1 := if params.LogoFile ≠ "" then { c with Logo := params.LogoFile } else c
  let c2 := match params.Search with
    | some b => { c1 with Search := b }
    | none => c1
  match params.RTL with
  | some b => { c2 with RTLEnabled := b }
  | none => c2

/-! ## The atomic-write producers -/

/-- The bytes of a text (UTF-8), as `buf.Bytes()` hands them to `Write`. -/
def bytesOf (s : String) : List UInt8 :=
  s.toUTF8.data.toList

/-- What the environment decides during one call of a producer: the clock of
the target file system, the base name of the file `TempFile` creates (`none`
when `TempFile` fails), the minifier `m.Bytes` (`none` for an error), and
whether `Write`, `Close` or `Rename` fail. -/
structure WriteEnv where
  now : Nat
  temp : Option String
  minify : String → Option String
  writeFails : Bool
  closeFails : Bool
  renameFails : Bool

/-- The loaded page, `content`. -/
structure content where
  html : String
  Params : ContentParams
  deriving DecidableEq, Repr

/-- The method `content.produce`: the error of `TempFile` is checked before
the file is used; the deferred `Remove(outName)` runs on every later return.
A failed `Write` is taken to have written nothing. -/
def content.produce (c : content) (target : Tree) (minifyHTML : Bool) (env : WriteEnv) :
    Outcome × Tree :=
  match env.temp with
  | none => (.error "tempfile", target)
  | some outName =>
    let target1 := target.put outName { data := [], modTime := env.now }
    match (if minifyHTML then env.minify c.html else some c.html) with
    | none => (.error "minify", target1.remove outName)
    | some result =>
      if env.writeFails then (.error "write", target1.remove outName)
      else
        let target2 := target1.put outName { data := bytesOf result, modTime := env.now }
        if env.closeFails then (.error "close", target2.remove outName)
        else if env.renameFails then (.error "rename", target2.remove outName)
        else
          match target2.rename outName "index.html" with
          | none => (.error "rename", target2.remove outName)
          | some target3 => (.ok, target3.remove outName)

/-- The function `produceJavaScript`: bundle, minify, then `TempFile`, whose
file is used (`file.Name()`) before its error is checked; the deferred
`Remove(fileName)` runs on every return after that check. -/
def produceJavaScript (fs : FileSystem) (src : String) (target : Tree) (minifyJs : Bool)
    (env : WriteEnv) : Outcome × Tree :=
  match bundle fs src with
  | .error _ => (.error "loadJS", target)
  | .ok st =>
    match (if minifyJs then env.minify st.buffer else some st.buffer) with
    | none => (.error "minify", target)
    | some result =>
      match env.temp with
      | none => (.panic "nil dereference: file.Name()", target)
      | some base =>
        let fileName := filepathJoin "javascripts" base
        let target1 := target.put fileName { data := [], modTime := env.now }
        if env.writeFails then (.error "write", target1.remove fileName)
        else
          let target2 := target1.put fileName { data := bytesOf result, modTime := env.now }
          if env.closeFails then (.error "close", target2.remove fileName)
          else if env.renameFails then (.error "rename", target2.remove fileName)
          else
            match target2.rename fileName (filepathJoin "javascripts" src) with
            | none => (.error "rename", target2.remove fileName)
            | some target3 => (.ok, target3.remove fileName)

/-- What the environment decides during the compilation of one stylesheet:
the clock, the file `TempFile` creates, the compiler (`libsass.New` and
`compiler.Run`, `none` for an error) and whether `Rename` fails. -/
structure StyleEnv where
  now : Nat
  temp : Option String
  compile : List UInt8 → Option (List UInt8)
  renameFails : Bool

/-- The closure `copyStylesheetsAndFonts` runs for each target `s`: open the
source, `TempFile`, whose file is used (`dst.Name()`) before its error is
checked, compile into it, rename it to the target name. -/
def compileStylesheet (s : String) (fs : Tree) (target : Tree) (env : StyleEnv) :
    Outcome × Tree :=
  match fs.lookup (filepathJoin "stylesheets" (s ++ ".scss")) with
  | none => (.error "can't open Slate stylesheet source file", target)
  | some src =>
    match env.temp with
    | none => (.panic "nil dereference: dst.Name()", target)
    | some base =>
      let dstName := filepathJoin "stylesheets" base
      let target1 := target.put dstName { data := [], modTime := env.now }
      match env.compile src.data with
      | none => (.error "compile", target1.remove dstName)
      | some css =>
        let target2 := target1.put dstName { data := css, modTime := env.now }
        if env.renameFails then (.error "rename", target2.remove dstName)
        else
          match target2.rename dstName (filepathJoin "stylesheets" s) with
          | none => (.error "rename", target2.remove dstName)
          | some target3 => (.ok, target3.remove dstName)

/-- An entry of a directory listing: `Name()` and `IsDir()`. -/
structure DirEntry where
  Name : String
  IsDir : Bool
  deriving DecidableEq, Repr

/-- Go `strings.HasSuffix`. -/
def hasSuffix (s suffix : String) : Bool :=
  suffix.data.isSuffixOf s.data

/-- The first loop of `copyJavaScripts`: the names of the entries that are
no directory and end in `.js`. -/
def jsFilesOf : List DirEntry → List String
  | [] => []
  | e :: rest =>
    if !e.IsDir && hasSuffix e.Name ".js" then e.Name :: jsFilesOf rest
    else jsFilesOf rest

/-- The second loop of `copyJavaScripts` over `files`; `env` gives the
environment of the call of `produceJavaScript` for each file. -/
def copyJavaScriptsLoop (fs : FileSystem) (search minifyJs : Bool) (env : String → WriteEnv) :
    List String → Tree → Outcome × Tree
  | [], target => (.ok, target)
  | jsFile :: rest, target =>
    if jsFile = "all.js" ∧ search = false then
      copyJavaScriptsLoop fs search minifyJs env rest target
    else if jsFile = "all_nosearch.js" ∧ search = true then
      copyJavaScriptsLoop fs search minifyJs env rest target
    else
      match produceJavaScript fs jsFile target minifyJs (env jsFile) with
      | (.ok, target1) => copyJavaScriptsLoop fs search minifyJs env rest target1
      | (.error msg, target1) => (.error msg, target1)
      | (.panic msg, target1) => (.panic msg, target1)

/-- The function `copyJavaScripts`; `jsDir` is the listing of the
`javascripts` directory, `none` when `Open` or `Readdir` fail. -/
def copyJavaScripts (fs : FileSystem) (jsDir : Option (List DirEntry)) (target : Tree)
    (search minifyJs : Bool) (env : String → WriteEnv) : Outcome × Tree :=
  match jsDir with
  | none => (.error "javascripts", target)
  | some jsFiles => copyJavaScriptsLoop fs search minifyJs env (jsFilesOf jsFiles) target

/-- Running a producer over a list of files, in order, up to the first one
that does not return `nil`. -/
def produceAll (produce : String → Tree → Outcome × Tree) : List String → Tree → Outcome × Tree
  | [], target => (.ok, target)
  | f :: rest, target =>
    match produce f target with
    | (.ok, target1) => produceAll produce rest target1
    | (.error msg, target1) => (.error msg, target1)
    | (.panic msg, target1) => (.panic msg, target1)

/-- Whether the second loop of `copyJavaScripts` bundles the file. -/
def jsSelected (search : Bool) (jsFile : String) : Bool :=
  !(jsFile = "all.js" && !search) && !(jsFile = "all_nosearch.js" && search)

/-- A call without faults at time `now`, creating the temporary file `base`
and minifying nothing away. -/
def plainEnv (now : Nat) (base : String) : WriteEnv :=
  { now := now, temp := some base, minify := fun s => some s,
    writeFails := false, closeFails := false, renameFails := false }

/-- A call in which `TempFile` fails. -/
def noTempEnv : WriteEnv :=
  { now := 0, temp := none, minify := fun s => some s,
    writeFails := false, closeFails := false, renameFails := false }

/-- Two entries that share the dependency `lib/d.js`. -/
def sharedFS : FileSystem :=
  [("e1.js", ["//= require lib/d", "one();"]),
   ("e2.js", ["//= require ./lib/d", "two();"]),
   ("lib/d.js", ["dep();"])]

/-! ## The command-line options -/

/-- The options of the generating commands, `generateOptions`. -/
structure generateOptions where
  noMinify : List String
  search : Bool
  noSearch : Bool
  rtl : Bool
  noRtl : Bool
  styleFile : String
  logoFile : String
  deriving DecidableEq, Repr

/-- A flag as given on the command line, with its parsed value. -/
inductive FlagArg where
  | bool (name : String) (value : Bool)
  | str (name : String) (value : String)
  | strs (name : String) (values : List String)
  deriving DecidableEq, Repr

/-- The variable each flag of `genOpts` is bound to: a given flag stores its
value there. Both `--search` and `--no-search` are bound to `noSearch`. -/
def setFlag (opts : generateOptions) (arg : FlagArg) : generateOptions :=
  match arg with
  | .bool name v =>
    if name = "rtl" then { opts with rtl := v }
    else if name = "no-rtl" then { opts with noRtl := v }
    else if name = "search" then { opts with noSearch := v }
    else if name = "no-search" then { opts with noSearch := v }
    else opts
  | .str name v =>
    if name = "style" then { opts with styleFile := v }
    else if name = "logo" then { opts with logoFile := v }
    else opts
  | .strs name vs =>
    if name = "no-minify" then { opts with noMinify := opts.noMinify ++ vs }
    else opts

/-- The options `genOpts` registers, after the flags given on the command
line were parsed: every variable starts at its default (`false`, empty). -/
def genOpts (args : List FlagArg) : generateOptions :=
  args.foldl setFlag
    { noMinify := [], search := false, noSearch := false, rtl := false, noRtl := false,
      styleFile := "", logoFile := "" }

/-- The zero value of `Params`. -/
def zeroParams : Params :=
  { MinifyHTML := false, MinifyJS := false, MinifyCSS := false, StyleFile := "",
    LogoFile := "", Search := none, RTL := none }

/-- The loop of `setParams` over `opts.noMinify`. -/
def setNoMinify : List String → Params → Option String × Params
  | [], params => (none, params)
  | s :: rest, params =>
    if s = "all" then
      (none, { params with MinifyCSS := false, MinifyJS := false, MinifyHTML := false })
    else if s = "css" then setNoMinify rest { params with MinifyCSS := false }
    else if s = "js" then setNoMinify rest { params with MinifyJS := false }
    else if s = "html" then setNoMinify rest { params with MinifyHTML := false }
    else (some ("unknown parameter " ++ s ++ " to --no-minify"), params)

/-- The function `setParams`: the returned error, `none` for `nil`, and the
`Params` as the call leaves them. -/
def setParams (params : Params) (opts : generateOptions) : Option String × Params :=
  let p0 := { params with MinifyHTML := true, MinifyCSS := true, MinifyJS := true }
  if opts.search ∧ opts.noSearch then (some "both --search and --no-search set", p0)
  else
    let p1 :=
      if opts.search then { p0 with Search := some true }
      else if opts.noSearch then { p0 with Search := some false }
      else p0
    if opts.rtl ∧ opts.noRtl then (some "both --rtl and --no-rtl set", p1)
    else
      let p2 :=
        if opts.rtl then { p1 with RTL := some true }
        else if opts.noRtl then { p1 with RTL := some false }
        else p1
      setNoMinify opts.noMinify { p2 with LogoFile := opts.logoFile, StyleFile := opts.styleFile }

/-! ## The function `load` -/

/-- What `load` takes from outside: the text of `layouts/layout.tmpl`
(`none` when it cannot be opened or read), the template parser, the lines of
`index.html.md`, the YAML decoder of the preamble, the text of an include
file by path, the Markdown parser with the two renderers (the headings of
the table of contents and the body HTML), and `tmpl.Execute` (the text it
wrote and whether it returned an error). -/
structure LoadEnv (τ : Type) where
  layout : Option String
  parse : String → Option τ
  index : Option (List String)
  unmarshal : String → Option ContentParams
  openInclude : String → Option String
  markdown : String → List Heading × String
  execute : τ → ContentParams → String → String → String × Bool

/-- The loop of `load` over the includes: each file is appended to the
buffer, followed by a newline; a missing file fails. -/
def loadIncludes (openInclude : String → Option String) : List String → String → Option String
  | [], buf => some buf
  | inc :: rest, buf =>
    match openInclude (filepathJoin "includes" ("_" ++ inc ++ ".md")) with
    | none => none
    | some data => loadIncludes openInclude rest (buf ++ data ++ "\n")

/-- The function `load`. The error of `tmpl.Execute` is assigned and not
looked at: the function ends with `return ret, nil`. -/
def load {τ : Type} (env : LoadEnv τ) (params : Params) : Except String content :=
  match env.layout with
  | none => .error "layout"
  | some tmplSrc =>
    match env.parse tmplSrc with
    | none => .error "template"
    | some tmpl =>
      match env.index with
      | none => .error "index"
      | some lines =>
        let sc := scanFrontMatter lines
        match env.unmarshal sc.preamble with
        | none => .error "yaml"
        | some cp =>
          match loadIncludes env.openInclude cp.Includes sc.buf with
          | none => .error "include"
          | some buf =>
            let cp1 := applyParams params cp
            let md := env.markdown buf
            let out := env.execute tmpl cp1 (produceTOC md.1) md.2
            .ok { html := out.1, Params := cp1 }

/-- The all-defaults front matter. -/
def zeroContentParams : ContentParams :=
  { Title := "", Search := false, Highlight := "", Langs := [], TocFooters := [],
    Includes := [], Style := "", Logo := "", RTLEnabled := false, HTMLHead := "" }

/-- An environment in which every step succeeds but the expansion of the
layout: `tmpl.Execute` writes the start of the page and returns an error. -/
def brokenLayoutEnv : LoadEnv String :=
  { layout := some "<html>\x7b\x7b.Params.Nope\x7d\x7d</html>"
    parse := fun src => some src
    index := some ["# Intro"]
    unmarshal := fun _ => some zeroContentParams
    openInclude := fun _ => none
    markdown := fun _ => ([introHeading], "<h1 id=\"intro\">Intro</h1>\n")
    execute := fun _ _ _ _ => ("<html>", true) }

/-- A target that already holds a page and a bundle. -/
def builtTarget : Tree :=
  [("index.html", { data := [60, 104, 62], modTime := 50 }),
   ("javascripts/e1.js", { data := [111, 108, 100], modTime := 50 })]

/-- A call at time `now`, creating the temporary file `base`, in which
`Rename` fails. -/
def renameFailsEnv (now : Nat) (base : String) : WriteEnv :=
  { now := now, temp := some base, minify := fun s => some s,
    writeFails := false, closeFails := false, renameFails := true }

/-- A page. -/
def samplePage : content :=
  { html := "<html></html>", Params := zeroContentParams }

/-- A source tree with one stylesheet. -/
def styleSource : Tree :=
  [("stylesheets/screen.css.scss", { data := [97, 123, 125], modTime := 100 })]

/-- A stylesheet compilation in which `TempFile` fails. -/
def noTempStyleEnv : StyleEnv :=
  { now := 0, temp := none, compile := fun b => some b, renameFails := false }

/-- A copy in which `TempFile` fails. -/
def noTempTargetEnv : TargetEnv :=
  { now := 0, temp := none, copyFails := false, renameFails := false }

/-- A listing of the `javascripts` directory. -/
def sampleListing : List DirEntry :=
  [{ Name := "all.js", IsDir := false },
   { Name := "all_nosearch.js", IsDir := false },
   { Name := "app", IsDir := true },
   { Name := "lib.js", IsDir := true },
   { Name := "notes.txt", IsDir := false },
   { Name := "e1.js", IsDir := false }]

/-- The environment of a pass over `sharedFS`: every call at time 200, the
temporary file named after the entry. -/
def passEnv (jsFile : String) : WriteEnv :=
  plainEnv 200 (".slate-" ++ jsFile)

/-- A listing with the two entries of `sharedFS`. -/
def sharedListing : List DirEntry :=
  [{ Name := "e1.js", IsDir := false }, { Name := "e2.js", IsDir := false }]

/-! ## The script bundler over the paths it opens -/

/-- The source tree by path: for each path, as `fs.Open` takes it, the lines
the scanner reads from the file. One file has one path and may be reached
under several source names. -/
abbrev PathFS := List (String × List String)

/-- The path `loadJS` opens for a source name:
`path.Join("javascripts", source)`. -/
def scriptPath (source : String) : String :=
  filepathJoin "javascripts" source

/-- The call `fs.Open(path.Join("javascripts", source))`. -/
def PathFS.openScript (pfs : PathFS) (source : String) : Option (List String) :=
  pfs.lookup (scriptPath source)

/-- The function `loadJS` over the source tree by path: the included list
holds source names, the file is opened at `path.Join("javascripts", source)`.
The first argument bounds the depth of the recursion. -/
def loadJSPath (pfs : PathFS) : Nat → String → LoadState → Except LoadError LoadState
  | 0, _, _ => .error .outOfFuel
  | fuel + 1, source, st =>
    if source ∈ st.loaded then .ok st
    else
      let st1 : LoadState := { st with loaded := st.loaded ++ [source] }
      match pfs.openScript source with
      | none => .error (.openFailed source)
      | some lines => scanLines (loadJSPath pfs fuel) (pathDir source) lines true st1

/-- The files a source name requires, by the names its directives resolve
to. -/
def requiresPath (pfs : PathFS) (f : String) : List String :=
  match pfs.openScript f with
  | none => []
  | some lines => (directives lines).map (required (pathDir f))

/-- The body of the file a source name opens. -/
def bodyPath (pfs : PathFS) (f : String) : String :=
  match pfs.openScript f with
  | none => ""
  | some lines => writeLines (bodyLines lines)

/-- Two files that require each other, `b.js` naming `a.js` by a path that
leaves the `javascripts` directory and comes back. -/
def aliasCycle : PathFS :=
  [("javascripts/a.js", ["//= require b", "var a;"]),
   ("javascripts/b.js", ["//= require ../javascripts/a", "var b;"])]

/-- A file that requires `b.js` twice, under two paths. -/
def aliasTwice : PathFS :=
  [("javascripts/a.js", ["//= require ../javascripts/b", "//= require b", "var a;"]),
   ("javascripts/b.js", ["var b;"])]

/-- Whether a path starts with a slash. -/
def rootedPath : List Char → Bool
  | [] => false
  | c :: _ => decide (c = '/')

/-- The component `..`. -/
def dotdot : List Char := ['.', '.']

/-- The component `javascripts`. -/
def jsDirName : List Char := ['j', 'a', 'v', 'a', 's', 'c', 'r', 'i', 'p', 't', 's']

/-- The components `path.Clean` keeps of a path, last one first. -/
def cleanStack (p : List Char) : List (List Char) :=
  (splitSlash p).foldl (cleanStep (rootedPath p)) []

/-- The path `path.Clean` returns for the components it kept. -/
def renderPath (rooted : Bool) (stack : List (List Char)) : String :=
  if (if rooted then ['/'] else []) ++ joinSlash stack.reverse = [] then "."
  else String.mk ((if rooted then ['/'] else []) ++ joinSlash stack.reverse)

/-- A component that `path.Clean` keeps as it is: not empty, not `.`, not
`..`, without a slash. -/
def NormalComp (c : List Char) : Prop :=
  c ≠ [] ∧ c ≠ ['.'] ∧ c ≠ dotdot ∧ '/' ∉ c

/-- The shape of the components `path.Clean` keeps: `..` components first
(none in a rooted path), then components kept as they are. The stack holds
them last one first. -/
def GoodStack (rooted : Bool) (stack : List (List Char)) : Prop :=
  ∃ (n : Nat) (T : List (List Char)), stack = T ++ List.replicate n dotdot
    ∧ (∀ c ∈ T, NormalComp c) ∧ (rooted = true → n = 0)

/-- The cleaned source names `path.Join("javascripts", name)` can map to the
path `k`: `k` without its leading `javascripts/`, the same with a leading
slash, `k` behind `../`, and the names `.`, `/` and `..`. -/
def aliases (k : String) : List String :=
  [String.mk (k.data.drop 12), String.mk ('/' :: k.data.drop 12), "../" ++ k, ".", "/", ".."]

/-- The aliases of a list of paths. -/
def aliasNames : List String → List String
  | [] => []
  | k :: ks => aliases k ++ aliasNames ks

/-- The script files of a source tree by source name: the entry and every
alias of a path of the tree, each with the lines it opens. -/
def PathFS.scripts (pfs : PathFS) (entry : String) : FileSystem :=
  (entry :: aliasNames (pfs.map Prod.fst)).filterMap fun s =>
    (pfs.openScript s).map fun ls => (s, ls)

/-- The recursion budget that suffices for a source tree: six names for each
file, the entry, and one. -/
def budget (pfs : PathFS) : Nat := 6 * pfs.length + 2

/-- The call of `produceJavaScript` over the source tree by path. -/
def bundlePath (pfs : PathFS) (entry : String) : Except LoadError LoadState :=
  loadJSPath pfs (budget pfs) entry { buffer := "", loaded := [] }

/-- Reachability through require directives, by source name, over the source
tree by path. -/
def ReachPath (pfs : PathFS) : String → String → Prop :=
  Relation.ReflTransGen fun f g => g ∈ requiresPath pfs f

/-- The body of the file at a path. -/
def fileBody (pfs : PathFS) (path : String) : String :=
  match pfs.lookup path with
  | none => ""
  | some lines => writeLines (bodyLines lines)

/-- A cycle by path: `a.js` and `b.js` require each other by their plain
names. -/
def cycleTree : PathFS :=
  [("javascripts/a.js", ["//= require b", "var a;"]),
   ("javascripts/b.js", ["//= require ./a", "var b;"])]

/-- A diamond with a back edge, by path: `a.js` requires `b.js` and `c.js`,
both require `lib/d.js`, and `lib/d.js` requires `a.js`. -/
def diamondTree : PathFS :=
  [("javascripts/a.js", ["//= require b", "//= require c", "var a;"]),
   ("javascripts/b.js", ["//= require lib/d", "var b;"]),
   ("javascripts/c.js", ["//= require ./lib/d", "var c;"]),
   ("javascripts/lib/d.js", ["//= require ../a", "var d;"])]

/-- The source names reachable in `diamondTree`. -/
def diamondNames : List String := ["a.js", "b.js", "c.js", "lib/d.js"]

/-! ### Basic facts -/

theorem concatS_append (xs ys : List String) :
    concatS (xs ++ ys) = concatS xs ++ concatS ys := by
  induction xs with
  | nil => simp [concatS]
  | cons x xs ih => simp [concatS, ih, String.append_assoc]

theorem writeLines_cons (l : String) (ls : List String) :
    writeLines (l :: ls) = l ++ "\n" ++ writeLines ls := by
  simp [writeLines, concatS]

theorem scanLines_false (rec : String → LoadState → Except LoadError LoadState)
    (dir : String) (ls : List String) (st : LoadState) :
    scanLines rec dir ls false st
      = .ok { st with buffer := st.buffer ++ writeLines ls } := by
  induction ls generalizing st with
  | nil => simp [scanLines, writeLines, concatS]
  | cons l ls ih =>
    simp [scanLines, ih, writeLines_cons, String.append_assoc]

theorem thenWrite_thenWrite (r : Except LoadError LoadState) (a b : String) :
    thenWrite (thenWrite r a) b = thenWrite r (a ++ b) := by
  cases r <;> simp [thenWrite, String.append_assoc]

/-- The scanner loop, started with the flag set, is: the recursive calls for
the leading directives, then the remaining lines written to the buffer. -/
theorem scanLines_true (rec : String → LoadState → Except LoadError LoadState)
    (dir : String) (ls : List String) (st : LoadState) :
    scanLines rec dir ls true st
      = thenWrite (loadAll rec ((directives ls).map (required dir)) st)
          (writeLines (bodyLines ls)) := by
  induction ls generalizing st with
  | nil => simp [scanLines, directives, bodyLines, loadAll, thenWrite, writeLines, concatS]
  | cons l ls ih =>
    cases hm : jsReqRE l with
    | none =>
      simp [scanLines, directives, bodyLines, hm, loadAll, thenWrite, scanLines_false,
        writeLines_cons, String.append_assoc]
    | some m =>
      simp only [scanLines, directives, bodyLines, hm, loadAll, List.map_cons, if_true]
      cases hr : rec (required dir m) st with
      | error e => simp [thenWrite]
      | ok st1 => simpa using ih st1

/-- Unfolding of `loadJS` on a file that is not yet included and opens. -/
theorem loadJS_succ_new (fs : FileSystem) (fuel : Nat) (source : String) (st : LoadState)
    (hnew : source ∉ st.loaded) (hopen : (fs.open source).isSome = true) :
    loadJS fs (fuel + 1) source st
      = thenWrite (loadAll (loadJS fs fuel) (requires fs source)
          { st with loaded := st.loaded ++ [source] }) (body fs source) := by
  cases ho : fs.open source with
  | none => simp [ho] at hopen
  | some lines => simp [loadJS, hnew, ho, requires, body, scanLines_true]

theorem loadJS_succ_old (fs : FileSystem) (fuel : Nat) (source : String) (st : LoadState)
    (hold : source ∈ st.loaded) : loadJS fs (fuel + 1) source st = .ok st := by
  simp [loadJS, hold]

theorem loadJS_succ_missing (fs : FileSystem) (fuel : Nat) (source : String) (st : LoadState)
    (hnew : source ∉ st.loaded) (hopen : fs.open source = none) :
    loadJS fs (fuel + 1) source st = .error (.openFailed source) := by
  simp [loadJS, hnew, hopen]

/-! ### The traversal invariant -/

theorem Before.append_right {order : List String} {g f : String} (h : Before order g f)
    (tail : List String) : Before (order ++ tail) g f := by
  obtain ⟨l1, l2, l3, rfl⟩ := h
  exact ⟨l1, l2, l3 ++ tail, by simp⟩

theorem Before.append_left {order : List String} {g f : String} (h : Before order g f)
    (front : List String) : Before (front ++ order) g f := by
  obtain ⟨l1, l2, l3, rfl⟩ := h
  exact ⟨front ++ l1, l2, l3, by simp⟩

theorem Before.of_mem_mem {o1 o2 : List String} {g f : String} (hg : g ∈ o1) (hf : f ∈ o2) :
    Before (o1 ++ o2) g f := by
  obtain ⟨a, b, rfl⟩ := List.append_of_mem hg
  obtain ⟨c, d, rfl⟩ := List.append_of_mem hf
  exact ⟨a, b ++ c, d, by simp⟩

theorem Before.mem_left {order : List String} {g f : String} (h : Before order g f) :
    g ∈ order := by
  obtain ⟨l1, l2, l3, rfl⟩ := h
  simp

theorem Visit.nil (fs : FileSystem) (st : LoadState) : Visit fs [] st st [] where
  buffer_eq := by simp [concatS]
  loaded_eq := ⟨[], by simp, List.Perm.refl _⟩
  nodup := List.nodup_nil
  fresh := by simp
  opens := by simp
  reach := by simp
  roots_done := by simp
  edges := by simp

theorem Visit.old (fs : FileSystem) (st : LoadState) (r : String) (h : r ∈ st.loaded) :
    Visit fs [r] st st [] where
  buffer_eq := by simp [concatS]
  loaded_eq := ⟨[], by simp, List.Perm.refl _⟩
  nodup := List.nodup_nil
  fresh := by simp
  opens := by simp
  reach := by simp
  roots_done := by simp [h]
  edges := by simp

/-- Two consecutive runs compose. -/
theorem Visit.append {fs : FileSystem} {r : String} {rs : List String}
    {st st1 st2 : LoadState} {o1 o2 : List String}
    (h1 : Visit fs [r] st st1 o1) (h2 : Visit fs rs st1 st2 o2) :
    Visit fs (r :: rs) st st2 (o1 ++ o2) := by
  obtain ⟨pre1, hl1, hp1⟩ := h1.loaded_eq
  obtain ⟨pre2, hl2, hp2⟩ := h2.loaded_eq
  have hmem1 : ∀ x, x ∈ st1.loaded ↔ x ∈ st.loaded ∨ x ∈ o1 := by
    intro x
    rw [hl1, List.mem_append, hp1.mem_iff]
  refine ⟨?_, ?_, ?_, ?_, ?_, ?_, ?_, ?_⟩
  · rw [h2.buffer_eq, h1.buffer_eq, List.map_append, concatS_append, String.append_assoc]
  · exact ⟨pre1 ++ pre2, by rw [hl2, hl1, List.append_assoc], hp1.append hp2⟩
  · rw [List.nodup_append]
    refine ⟨h1.nodup, h2.nodup, ?_⟩
    intro x hx1 hx2
    exact h2.fresh x hx2 ((hmem1 x).2 (Or.inr hx1))
  · intro f hf
    rcases List.mem_append.1 hf with hf | hf
    · exact h1.fresh f hf
    · exact fun hc => h2.fresh f hf ((hmem1 f).2 (Or.inl hc))
  · intro f hf
    rcases List.mem_append.1 hf with hf | hf
    · exact h1.opens f hf
    · exact h2.opens f hf
  · intro f hf
    rcases List.mem_append.1 hf with hf | hf
    · obtain ⟨x, hx, hr⟩ := h1.reach f hf
      have : x = r := by simpa using hx
      exact ⟨r, by simp, this ▸ hr⟩
    · obtain ⟨x, hx, hr⟩ := h2.reach f hf
      exact ⟨x, List.mem_cons_of_mem _ hx, hr⟩
  · intro x hx
    rcases List.mem_cons.1 hx with hx | hx
    · subst hx
      rcases h1.roots_done x (by simp) with h | h
      · exact Or.inl h
      · exact Or.inr (List.mem_append_left _ h)
    · rcases h2.roots_done x hx with h | h
      · rcases (hmem1 x).1 h with h | h
        · exact Or.inl h
        · exact Or.inr (List.mem_append_left _ h)
      · exact Or.inr (List.mem_append_right _ h)
  · intro f hf g hfg
    rcases List.mem_append.1 hf with hf | hf
    · rcases h1.edges f hf g hfg with h | ⟨hg, h⟩
      · exact Or.inl h
      · refine Or.inr ⟨List.mem_append_left _ hg, ?_⟩
        rcases h with h | h
        · exact Or.inl (h.append_right _)
        · exact Or.inr h
    · rcases h2.edges f hf g hfg with h | ⟨hg, h⟩
      · rcases (hmem1 g).1 h with h | h
        · exact Or.inl h
        · exact Or.inr ⟨List.mem_append_left _ h, Or.inl (Before.of_mem_mem h hf)⟩
      · refine Or.inr ⟨List.mem_append_right _ hg, ?_⟩
        rcases h with h | h
        · exact Or.inl (h.append_left _)
        · exact Or.inr h

/-- The run over the files a new file requires, followed by the file's own
body, is a run over that file. -/
theorem Visit.close {fs : FileSystem} {source : String} {st st2 : LoadState}
    {o : List String} (hnew : source ∉ st.loaded) (hopen : (fs.open source).isSome = true)
    (h : Visit fs (requires fs source) { st with loaded := st.loaded ++ [source] } st2 o) :
    Visit fs [source] st { st2 with buffer := st2.buffer ++ body fs source }
      (o ++ [source]) := by
  obtain ⟨pre, hl, hp⟩ := h.loaded_eq
  have hfresh : ∀ f ∈ o, f ∉ st.loaded ∧ f ≠ source := by
    intro f hf
    have := h.fresh f hf
    simp only [List.mem_append, List.mem_singleton, not_or] at this
    exact this
  have hreach : ∀ f ∈ o, Reach fs source f := by
    intro f hf
    obtain ⟨x, hx, hr⟩ := h.reach f hf
    exact Relation.ReflTransGen.head hx hr
  refine ⟨?_, ?_, ?_, ?_, ?_, ?_, ?_, ?_⟩
  · simp [h.buffer_eq, List.map_append, concatS_append, concatS, String.append_assoc]
  · refine ⟨source :: pre, ?_, ?_⟩
    · simp [hl]
    · exact (List.Perm.cons source hp).trans (List.perm_append_singleton source o).symm
  · rw [List.nodup_append]
    refine ⟨h.nodup, List.nodup_singleton _, ?_⟩
    intro x hx1 hx2
    exact (hfresh x hx1).2 (by simpa using hx2)
  · intro f hf
    rcases List.mem_append.1 hf with hf | hf
    · exact (hfresh f hf).1
    · have : f = source := by simpa using hf
      exact this ▸ hnew
  · intro f hf
    rcases List.mem_append.1 hf with hf | hf
    · exact h.opens f hf
    · have : f = source := by simpa using hf
      exact this ▸ hopen
  · intro f hf
    refine ⟨source, by simp, ?_⟩
    rcases List.mem_append.1 hf with hf | hf
    · exact hreach f hf
    · have : f = source := by simpa using hf
      exact this ▸ Relation.ReflTransGen.refl
  · intro x hx
    have : x = source := by simpa using hx
    exact Or.inr (by simp [this])
  · intro f hf g hfg
    rcases List.mem_append.1 hf with hf | hf
    · rcases h.edges f hf g hfg with hg | ⟨hg, hb⟩
      · simp only [List.mem_append, List.mem_singleton] at hg
        rcases hg with hg | hg
        · exact Or.inl hg
        · exact Or.inr ⟨by simp [hg], Or.inr (hg ▸ hreach f hf)⟩
      · refine Or.inr ⟨List.mem_append_left _ hg, ?_⟩
        rcases hb with hb | hb
        · exact Or.inl (hb.append_right _)
        · exact Or.inr hb
    · have hfs : f = source := by simpa using hf
      subst hfs
      rcases h.roots_done g hfg with hg | hg
      · simp only [List.mem_append, List.mem_singleton] at hg
        rcases hg with hg | hg
        · exact Or.inl hg
        · exact Or.inr ⟨by simp [hg], Or.inr (hg ▸ Relation.ReflTransGen.refl)⟩
      · exact Or.inr ⟨List.mem_append_left _ hg, Or.inl (Before.of_mem_mem hg (by simp))⟩

theorem thenWrite_eq_ok {r : Except LoadError LoadState} {text : String} {st1 : LoadState}
    (h : thenWrite r text = .ok st1) :
    ∃ st2, r = .ok st2 ∧ st1 = { st2 with buffer := st2.buffer ++ text } := by
  cases r with
  | error e => simp [thenWrite] at h
  | ok st2 =>
    simp only [thenWrite, Except.ok.injEq] at h
    exact ⟨st2, rfl, h.symm⟩

theorem thenWrite_eq_error {r : Except LoadError LoadState} {text : String} {e : LoadError}
    (h : thenWrite r text = .error e) : r = .error e := by
  cases r with
  | error e1 => simpa [thenWrite] using h
  | ok st2 => simp [thenWrite] at h

theorem loadAll_visit {fs : FileSystem} {rec : String → LoadState → Except LoadError LoadState}
    (hrec : ∀ r st st1, rec r st = .ok st1 → ∃ o, Visit fs [r] st st1 o)
    (rs : List String) (st st1 : LoadState) (h : loadAll rec rs st = .ok st1) :
    ∃ o, Visit fs rs st st1 o := by
  induction rs generalizing st with
  | nil =>
    simp only [loadAll, Except.ok.injEq] at h
    subst h
    exact ⟨[], Visit.nil fs st⟩
  | cons r rs ih =>
    simp only [loadAll] at h
    cases hr : rec r st with
    | error e => simp [hr] at h
    | ok st2 =>
      simp only [hr] at h
      obtain ⟨o1, h1⟩ := hrec r st st2 hr
      obtain ⟨o2, h2⟩ := ih st2 h
      exact ⟨o1 ++ o2, h1.append h2⟩

/-- The invariant of one call of `loadJS`: the files whose bodies it wrote,
in the order written, end with the file itself when it was not yet included. -/
theorem loadJS_visit (fs : FileSystem) (fuel : Nat) (source : String) (st st1 : LoadState)
    (h : loadJS fs fuel source st = .ok st1) :
    ∃ o, Visit fs [source] st st1 o ∧ (source ∉ st.loaded → ∃ init, o = init ++ [source]) := by
  induction fuel generalizing source st st1 with
  | zero => simp [loadJS] at h
  | succ fuel ih =>
    by_cases hold : source ∈ st.loaded
    · rw [loadJS_succ_old fs fuel source st hold] at h
      simp only [Except.ok.injEq] at h
      subst h
      exact ⟨[], Visit.old fs st source hold, fun hc => absurd hold hc⟩
    · cases ho : fs.open source with
      | none => simp [loadJS_succ_missing fs fuel source st hold ho] at h
      | some lines =>
        have hopen : (fs.open source).isSome = true := by simp [ho]
        rw [loadJS_succ_new fs fuel source st hold hopen] at h
        obtain ⟨st2, h2, rfl⟩ := thenWrite_eq_ok h
        obtain ⟨o, ho2⟩ := @loadAll_visit fs _
          (fun r s s1 hr => (ih r s s1 hr).imp fun _ hx => hx.1) _ _ _ h2
        exact ⟨o ++ [source], Visit.close hold hopen ho2, fun _ => ⟨o, rfl⟩⟩

theorem loadJS_loaded_grows (fs : FileSystem) (fuel : Nat) (source : String)
    (st st1 : LoadState) (h : loadJS fs fuel source st = .ok st1) :
    ∃ pre, st1.loaded = st.loaded ++ pre := by
  obtain ⟨o, hv, _⟩ := loadJS_visit fs fuel source st st1 h
  obtain ⟨pre, hp, _⟩ := hv.loaded_eq
  exact ⟨pre, hp⟩

/-! ### Termination -/

theorem mem_keys_of_open {fs : FileSystem} {f : String} {lines : List String}
    (h : fs.open f = some lines) : f ∈ fs.map Prod.fst := by
  induction fs with
  | nil => simp [FileSystem.open, List.lookup] at h
  | cons e fs ih =>
    obtain ⟨k, v⟩ := e
    by_cases hk : f = k
    · simp [hk]
    · have hb : (f == k) = false := by simpa using hk
      simp only [FileSystem.open, List.lookup, hb] at h
      exact List.mem_cons_of_mem _ (ih h)

theorem mem_of_open {fs : FileSystem} {f : String} {lines : List String}
    (h : fs.open f = some lines) : (f, lines) ∈ fs := by
  induction fs with
  | nil => simp [FileSystem.open, List.lookup] at h
  | cons e fs ih =>
    obtain ⟨k, v⟩ := e
    by_cases hk : f = k
    · subst hk
      simp only [FileSystem.open, List.lookup, beq_self_eq_true, Option.some.injEq] at h
      simp [h]
    · have hb : (f == k) = false := by simpa using hk
      simp only [FileSystem.open, List.lookup, hb] at h
      exact List.mem_cons_of_mem _ (ih h)

theorem pending_le_length (fs : FileSystem) (loaded : List String) :
    pending fs loaded ≤ fs.length := by
  unfold pending
  exact (List.countP_le_length _).trans (by simp)

theorem pending_append_le (fs : FileSystem) (loaded pre : List String) :
    pending fs (loaded ++ pre) ≤ pending fs loaded := by
  unfold pending
  apply List.countP_mono_left
  intro x _ hx
  simp only [List.mem_append, not_or, decide_eq_true_eq] at hx ⊢
  exact hx.1

theorem countP_lt_of_witness {α : Type} (p q : α → Bool) (l : List α)
    (hpq : ∀ x ∈ l, p x = true → q x = true) (a : α) (ha : a ∈ l)
    (hq : q a = true) (hp : p a = false) : l.countP p < l.countP q := by
  induction l with
  | nil => simp at ha
  | cons x xs ih =>
    have hmono : xs.countP p ≤ xs.countP q :=
      List.countP_mono_left fun y hy => hpq y (List.mem_cons_of_mem _ hy)
    rcases List.mem_cons.1 ha with hax | hax
    · subst hax
      rw [List.countP_cons_of_pos _ _ hq, List.countP_cons_of_neg _ _ (by simp [hp])]
      omega
    · have hlt := ih (fun y hy => hpq y (List.mem_cons_of_mem _ hy)) hax
      by_cases hpx : p x = true
      · rw [List.countP_cons_of_pos _ _ hpx,
          List.countP_cons_of_pos _ _ (hpq x (List.mem_cons_self _ _) hpx)]
        omega
      · rw [List.countP_cons_of_neg _ _ hpx]
        by_cases hqx : q x = true
        · rw [List.countP_cons_of_pos _ _ hqx]; omega
        · rw [List.countP_cons_of_neg _ _ hqx]; omega

theorem pending_add_lt (fs : FileSystem) (loaded : List String) (source : String)
    (hnew : source ∉ loaded) (hkey : source ∈ fs.map Prod.fst) :
    pending fs (loaded ++ [source]) < pending fs loaded := by
  unfold pending
  apply countP_lt_of_witness _ _ _ _ source hkey
  · simpa using hnew
  · simp
  · intro x _ hx
    simp only [List.mem_append, not_or, decide_eq_true_eq] at hx ⊢
    exact hx.1

theorem loadAll_fuel_ok {fs : FileSystem} {fuel : Nat}
    (ih : ∀ source st, pending fs st.loaded < fuel →
      loadJS fs fuel source st ≠ .error .outOfFuel)
    (rs : List String) (st : LoadState) (hp : pending fs st.loaded < fuel) :
    loadAll (loadJS fs fuel) rs st ≠ .error .outOfFuel := by
  induction rs generalizing st with
  | nil => simp [loadAll]
  | cons r rs ihr =>
    simp only [loadAll]
    cases hr : loadJS fs fuel r st with
    | error e =>
      intro hc
      simp only [Except.error.injEq] at hc
      exact ih r st hp (hc ▸ hr)
    | ok st2 =>
      obtain ⟨pre, hpre⟩ := loadJS_loaded_grows fs fuel r st st2 hr
      apply ihr
      rw [hpre]
      exact Nat.lt_of_le_of_lt (pending_append_le fs _ _) hp

/-- A budget larger than the number of files not yet included is never
exhausted. -/
theorem loadJS_fuel_ok (fs : FileSystem) (fuel : Nat) (source : String) (st : LoadState)
    (hp : pending fs st.loaded < fuel) : loadJS fs fuel source st ≠ .error .outOfFuel := by
  induction fuel generalizing source st with
  | zero => omega
  | succ fuel ih =>
    by_cases hold : source ∈ st.loaded
    · simp [loadJS_succ_old fs fuel source st hold]
    · cases ho : fs.open source with
      | none => simp [loadJS_succ_missing fs fuel source st hold ho]
      | some lines =>
        have hopen : (fs.open source).isSome = true := by simp [ho]
        rw [loadJS_succ_new fs fuel source st hold hopen]
        intro hc
        have hlt := pending_add_lt fs st.loaded source hold (mem_keys_of_open ho)
        exact loadAll_fuel_ok ih _ _ (by simp only; omega) (thenWrite_eq_error hc)

theorem loadAll_fuel_mono {rec1 rec2 : String → LoadState → Except LoadError LoadState}
    (hrec : ∀ s st r, rec1 s st = r → r ≠ .error .outOfFuel → rec2 s st = r)
    (rs : List String) (st : LoadState) (r : Except LoadError LoadState)
    (h : loadAll rec1 rs st = r) (hr : r ≠ .error .outOfFuel) : loadAll rec2 rs st = r := by
  induction rs generalizing st with
  | nil => simpa [loadAll] using h
  | cons x xs ih =>
    simp only [loadAll] at h ⊢
    cases hx : rec1 x st with
    | error e =>
      simp only [hx] at h
      have := hrec x st _ hx (by rw [h]; exact hr)
      rw [this]
      exact h
    | ok st2 =>
      simp only [hx] at h
      have := hrec x st _ hx (by simp)
      simp only [this]
      exact ih st2 h

theorem loadJS_fuel_succ (fs : FileSystem) (fuel : Nat) (source : String) (st : LoadState)
    (r : Except LoadError LoadState) (h : loadJS fs fuel source st = r)
    (hr : r ≠ .error .outOfFuel) : loadJS fs (fuel + 1) source st = r := by
  induction fuel generalizing source st r with
  | zero => simp [loadJS] at h; exact absurd h.symm hr
  | succ fuel ih =>
    by_cases hold : source ∈ st.loaded
    · rw [loadJS_succ_old fs _ source st hold] at h ⊢
      exact h
    · cases ho : fs.open source with
      | none =>
        rw [loadJS_succ_missing fs _ source st hold ho] at h ⊢
        exact h
      | some lines =>
        have hopen : (fs.open source).isSome = true := by simp [ho]
        rw [loadJS_succ_new fs _ source st hold hopen] at h ⊢
        cases hl : loadAll (loadJS fs fuel) (requires fs source)
            { st with loaded := st.loaded ++ [source] } with
        | error e =>
          have he : r = .error e := by simpa [hl, thenWrite] using h.symm
          have := @loadAll_fuel_mono _ (loadJS fs (fuel + 1)) ih _ _ _ hl
            (by rw [← he]; exact hr)
          rw [this, he]; rfl
        | ok st2 =>
          have := @loadAll_fuel_mono _ (loadJS fs (fuel + 1)) ih _ _ _ hl (by simp)
          rw [this, ← h, hl]

/-- Once the budget suffices, a larger one gives the same result. -/
theorem loadJS_fuel_mono (fs : FileSystem) (fuel k : Nat) (source : String) (st : LoadState)
    (r : Except LoadError LoadState) (h : loadJS fs fuel source st = r)
    (hr : r ≠ .error .outOfFuel) : loadJS fs (fuel + k) source st = r := by
  induction k with
  | zero => exact h
  | succ k ih => exact loadJS_fuel_succ fs (fuel + k) source st r ih hr

theorem loadJS_fuel_agree (fs : FileSystem) (n m : Nat) (source : String) (st : LoadState)
    (r : Except LoadError LoadState) (h : loadJS fs n source st = r)
    (hr : r ≠ .error .outOfFuel) (hm : loadJS fs m source st ≠ .error .outOfFuel) :
    loadJS fs m source st = r := by
  rcases Nat.le_total n m with hle | hle
  · obtain ⟨k, rfl⟩ := Nat.exists_eq_add_of_le hle
    exact loadJS_fuel_mono fs n k source st r h hr
  · obtain ⟨k, rfl⟩ := Nat.exists_eq_add_of_le hle
    have := loadJS_fuel_mono fs m k source st _ rfl hm
    rw [← this, h]

/-! ### Existence of the required files -/

theorem edge_opens {fs : FileSystem} {f g : String} (h : Edge fs f g) :
    (fs.open f).isSome = true := by
  unfold Edge requires at h
  cases ho : fs.open f with
  | none => simp [ho] at h
  | some lines => simp

theorem closed_of_closedB {fs : FileSystem} (h : closedB fs = true) : Closed fs := by
  intro f g hfg
  unfold Edge requires at hfg
  cases ho : fs.open f with
  | none => simp [ho] at hfg
  | some lines =>
    simp only [ho] at hfg
    simp only [closedB, List.all_eq_true] at h
    exact h (f, lines) (mem_of_open ho) g hfg

theorem acyclic_of_rank {fs : FileSystem} (rank : String → Nat)
    (h : ∀ f g, Edge fs f g → rank g < rank f) : Acyclic fs := by
  have key : ∀ f g, Relation.TransGen (Edge fs) f g → rank g < rank f := by
    intro f g hfg
    induction hfg with
    | single hab => exact h _ _ hab
    | tail _ hbc ih => exact Nat.lt_trans (h _ _ hbc) ih
  intro f hf
  exact Nat.lt_irrefl _ (key f f hf)

theorem acyclic_of_rankedB {fs : FileSystem} (rank : String → Nat)
    (h : rankedB fs rank = true) : Acyclic fs := by
  apply acyclic_of_rank rank
  intro f g hfg
  unfold Edge requires at hfg
  cases ho : fs.open f with
  | none => simp [ho] at hfg
  | some lines =>
    simp only [ho] at hfg
    simp only [rankedB, List.all_eq_true, decide_eq_true_eq] at h
    exact h (f, lines) (mem_of_open ho) g hfg

theorem loadAll_no_openFailed {fs : FileSystem} {fuel : Nat}
    (ih : ∀ source st e, (fs.open source).isSome = true →
      loadJS fs fuel source st = .error e → e = .outOfFuel)
    (rs : List String) (hrs : ∀ r ∈ rs, (fs.open r).isSome = true) (st : LoadState)
    (e : LoadError) (h : loadAll (loadJS fs fuel) rs st = .error e) : e = .outOfFuel := by
  induction rs generalizing st with
  | nil => simp [loadAll] at h
  | cons r rs ihr =>
    simp only [loadAll] at h
    cases hr : loadJS fs fuel r st with
    | error e1 =>
      simp only [hr, Except.error.injEq] at h
      exact h ▸ ih r st e1 (hrs r (List.mem_cons_self _ _)) hr
    | ok st2 =>
      simp only [hr] at h
      exact ihr (fun x hx => hrs x (List.mem_cons_of_mem _ hx)) st2 h

/-- When every required file exists, a call on an existing file can only
fail by exhausting the budget. -/
theorem loadJS_no_openFailed (fs : FileSystem) (hclosed : Closed fs) (fuel : Nat)
    (source : String) (st : LoadState) (e : LoadError)
    (hopen : (fs.open source).isSome = true)
    (h : loadJS fs fuel source st = .error e) : e = .outOfFuel := by
  induction fuel generalizing source st e with
  | zero => simpa [loadJS] using h.symm
  | succ fuel ih =>
    by_cases hold : source ∈ st.loaded
    · simp [loadJS_succ_old fs fuel source st hold] at h
    · rw [loadJS_succ_new fs fuel source st hold hopen] at h
      exact loadAll_no_openFailed (fun s t e1 hs he => ih s t e1 hs he) _
        (fun r hr => hclosed source r hr) _ e (thenWrite_eq_error h)

/-- The traversal invariant of a whole bundle. -/
theorem bundle_visit (fs : FileSystem) (entry : String) (hclosed : Closed fs)
    (hentry : (fs.open entry).isSome = true) :
    ∃ st order, bundle fs entry = .ok st
      ∧ Visit fs [entry] { buffer := "", loaded := [] } st order
      ∧ ∃ init, order = init ++ [entry] := by
  cases hb : bundle fs entry with
  | error e =>
    exfalso
    unfold bundle at hb
    have he := loadJS_no_openFailed fs hclosed _ _ _ e hentry hb
    subst he
    exact loadJS_fuel_ok fs _ entry _
      (Nat.lt_succ_of_le (pending_le_length fs _)) hb
  | ok st =>
    obtain ⟨o, hv, hlast⟩ := loadJS_visit fs _ entry _ st hb
    exact ⟨st, o, rfl, hv, hlast (by simp)⟩

theorem bundle_eq_of_fuel (fs : FileSystem) (n : Nat) (entry : String) (st : LoadState)
    (h : loadJS fs n entry { buffer := "", loaded := [] } = .ok st) :
    bundle fs entry = .ok st := by
  unfold bundle
  exact loadJS_fuel_agree fs n _ entry _ _ h (by simp)
    (loadJS_fuel_ok fs _ entry _ (Nat.lt_succ_of_le (pending_le_length fs _)))

theorem requires_ne_nil_opens {fs : FileSystem} {f : String} (h : requires fs f ≠ []) :
    (fs.open f).isSome = true := by
  unfold requires at h
  cases ho : fs.open f with
  | none => simp [ho] at h
  | some lines => simp

/-- The bundle of a chain `a` requires `b` requires `c`. -/
theorem bundle_chain (fs : FileSystem) (a b c : String)
    (ha : requires fs a = [b]) (hb : requires fs b = [c]) (hc : requires fs c = [])
    (hco : (fs.open c).isSome = true) :
    bundle fs a = .ok { buffer := body fs c ++ (body fs b ++ body fs a),
                        loaded := [a, b, c] } := by
  have hab : b ≠ a := by
    intro h; subst h
    rw [ha] at hb
    have hbc : b = c := by simpa using hb
    subst hbc
    rw [hc] at ha
    simp at ha
  have hca : c ≠ a := by
    intro h; subst h; rw [hc] at ha; simp at ha
  have hcb : c ≠ b := by
    intro h; subst h; rw [hc] at hb; simp at hb
  have hao := @requires_ne_nil_opens fs a (by simp [ha])
  have hbo := @requires_ne_nil_opens fs b (by simp [hb])
  apply bundle_eq_of_fuel fs 3
  rw [loadJS_succ_new fs 2 a _ (by simp) hao, ha]
  simp only [loadAll, List.nil_append]
  rw [loadJS_succ_new fs 1 b _ (by simpa using hab) hbo, hb]
  simp only [loadAll]
  rw [loadJS_succ_new fs 0 c _ (by simp [hca, hcb]) hco, hc]
  simp [loadAll, thenWrite, String.append_assoc]

/-- The bundle of a cycle `a` requires `b`, `b` requires `a`. -/
theorem bundle_cycle (fs : FileSystem) (a b : String) (hne : a ≠ b)
    (ha : requires fs a = [b]) (hb : requires fs b = [a]) :
    bundle fs a = .ok { buffer := body fs b ++ body fs a, loaded := [a, b] } := by
  have hao := @requires_ne_nil_opens fs a (by simp [ha])
  have hbo := @requires_ne_nil_opens fs b (by simp [hb])
  apply bundle_eq_of_fuel fs 3
  rw [loadJS_succ_new fs 2 a _ (by simp) hao, ha]
  simp only [loadAll, List.nil_append]
  rw [loadJS_succ_new fs 1 b _ (by simpa using hne.symm) hbo, hb]
  simp only [loadAll]
  rw [loadJS_succ_old fs 0 a _ (by simp)]
  simp [thenWrite]

theorem directives_append (ds rest : List String)
    (hds : ∀ d ∈ ds, (jsReqRE d).isSome = true)
    (hrest : rest.head?.bind jsReqRE = none) :
    directives (ds ++ rest) = ds.filterMap jsReqRE ∧ bodyLines (ds ++ rest) = rest := by
  induction ds with
  | nil =>
    cases rest with
    | nil => simp [directives, bodyLines]
    | cons l rest =>
      have : jsReqRE l = none := by simpa using hrest
      simp [directives, bodyLines, this]
  | cons d ds ih =>
    have hd := hds d (List.mem_cons_self _ _)
    obtain ⟨m, hm⟩ := Option.isSome_iff_exists.1 hd
    have := ih (fun x hx => hds x (List.mem_cons_of_mem _ hx))
    simp [directives, bodyLines, hm, this.1, this.2, List.filterMap_cons]

/-! ### Claims on the script bundler -/

/-- C1: for a finite set of script files whose require graph is acyclic and
whose required files all exist, the bundle of an existing entry is the
concatenation of the bodies of a duplicate-free list of files in which every
file required by an included file stands before that file; for a chain
`entry` requires `b` requires `c` the bundle is
`body c ++ body b ++ body entry`. -/
theorem loadJS_dependencies_first (fs : FileSystem) (entry : String)
    (hclosed : Closed fs) (hacyclic : Acyclic fs)
    (hentry : (fs.open entry).isSome = true) :
    ∃ (st : LoadState) (order : List String), bundle fs entry = .ok st
      ∧ st.buffer = concatS (order.map (body fs))
      ∧ order.Nodup
      ∧ (∀ f g, f ∈ order → Edge fs f g → Before order g f)
      ∧ (∀ b c, requires fs entry = [b] → requires fs b = [c] → requires fs c = [] →
          st.buffer = body fs c ++ (body fs b ++ body fs entry)) := by
  obtain ⟨st, order, hb, hv, _⟩ := bundle_visit fs entry hclosed hentry
  refine ⟨st, order, hb, ?_, hv.nodup, ?_, ?_⟩
  · simpa using hv.buffer_eq
  · intro f g hf hfg
    rcases hv.edges f hf g hfg with h | ⟨_, h | h⟩
    · simp at h
    · exact h
    · exact absurd (Relation.TransGen.head' hfg h) (hacyclic f)
  · intro b c h1 h2 h3
    have hco : (fs.open c).isSome = true :=
      hclosed b c (by unfold Edge; rw [h2]; simp)
    have := bundle_chain fs entry b c h1 h2 h3 hco
    rw [hb] at this
    simp only [Except.ok.injEq] at this
    rw [this]

/-- C4: in a file whose lines are `ds ++ rest`, where every line of `ds` is a
require directive and the first line of `rest` is not, `loadJS` includes the
files named by `ds`, in order, and then appends every line of `rest`
unchanged and in order, later directive-like lines included: the included
list is the one left by the calls for `ds`. -/
theorem loadJS_leading_directives (fs : FileSystem) (fuel : Nat) (source : String)
    (st : LoadState) (ds rest : List String)
    (hnew : source ∉ st.loaded) (hopen : fs.open source = some (ds ++ rest))
    (hds : ∀ d ∈ ds, (jsReqRE d).isSome = true)
    (hrest : rest.head?.bind jsReqRE = none) :
    loadJS fs (fuel + 1) source st
      = match loadAll (loadJS fs fuel)
            ((ds.filterMap jsReqRE).map (required (pathDir source)))
            { st with loaded := st.loaded ++ [source] } with
        | .error e => .error e
        | .ok st2 => .ok { st2 with buffer := st2.buffer ++ writeLines rest } := by
  obtain ⟨h1, h2⟩ := directives_append ds rest hds hrest
  rw [loadJS_succ_new fs fuel source st hnew (by simp [hopen])]
  simp only [requires, body, hopen, h1, h2]
  rfl

/-- Witness of C1 on the chain `a.js`, `lib/b.js`, `c.js`. -/
theorem loadJS_dependencies_first_witness :
    Closed chainFS ∧ Acyclic chainFS ∧ (chainFS.open "a.js").isSome = true
      ∧ bundle chainFS "a.js"
          = .ok { buffer := "var c;\nvar b;\nvar a;\n", loaded := ["a.js", "lib/b.js", "c.js"] }
      ∧ ∃ (st : LoadState) (order : List String), bundle chainFS "a.js" = .ok st
          ∧ st.buffer = concatS (order.map (body chainFS))
          ∧ order.Nodup
          ∧ (∀ f g, f ∈ order → Edge chainFS f g → Before order g f)
          ∧ (∀ b c, requires chainFS "a.js" = [b] → requires chainFS b = [c] →
              requires chainFS c = [] →
              st.buffer = body chainFS c ++ (body chainFS b ++ body chainFS "a.js")) :=
  ⟨closed_of_closedB (by decide), acyclic_of_rankedB chainRank (by decide), by decide, by rfl,
    loadJS_dependencies_first chainFS "a.js" (closed_of_closedB (by decide))
      (acyclic_of_rankedB chainRank (by decide)) (by decide)⟩

/-- Witness of C4: in `a.js` of `blankFS` the directive after the blank line
is written to the bundle and `c.js` is not included. -/
theorem loadJS_leading_directives_witness :
    "a.js" ∉ ([] : List String)
      ∧ blankFS.open "a.js" = some (["//= require b"] ++ ["", "//= require c", "var a;"])
      ∧ (∀ d ∈ ["//= require b"], (jsReqRE d).isSome = true)
      ∧ (["", "//= require c", "var a;"].head?.bind jsReqRE = none)
      ∧ loadJS blankFS 4 "a.js" { buffer := "", loaded := [] }
          = (match loadAll (loadJS blankFS 3)
                ((["//= require b"].filterMap jsReqRE).map (required (pathDir "a.js")))
                { buffer := "", loaded := [] ++ ["a.js"] } with
            | .error e => .error e
            | .ok st2 =>
              .ok { st2 with
                buffer := st2.buffer ++ writeLines ["", "//= require c", "var a;"] })
      ∧ loadJS blankFS 4 "a.js" { buffer := "", loaded := [] }
          = .ok { buffer := "var b;\n\n//= require c\nvar a;\n",
                  loaded := ["a.js", "b.js"] } :=
  ⟨by decide, by decide, by decide, by decide,
    loadJS_leading_directives blankFS 3 "a.js" { buffer := "", loaded := [] }
      ["//= require b"] ["", "//= require c", "var a;"]
      (by decide) (by decide) (by decide) (by decide),
    by rfl⟩

/-! ### Claims on the change-aware copier -/

/-- The comparison of `updateTarget`: when the target already holds a file
of the size and modification time of the source, the call writes nothing. -/
theorem updateTarget_skip (name : String) (fs target : Tree) (env : TargetEnv)
    (fi : FileInfo) (hs : fs.stat name = some fi) (ht : target.stat name = some fi) :
    updateTarget name fs target env = (.ok, target) := by
  simp [updateTarget, hs, ht]

/-- A fault-free call that does not skip leaves the destination with the
bytes of the source and the time of the write, not the source's time. -/
theorem updateTarget_copy_stat (name : String) (fs target : Tree) (now : Nat)
    (base : String) (src : FileData) (hsrc : List.lookup name fs = some src)
    (hdiff : target.stat name ≠ some { size := src.data.length, modTime := src.modTime })
    (hfresh : filepathJoin (pathDir name) base ≠ name) :
    (updateTarget name fs target (quietEnv now base)).1 = .ok
      ∧ (updateTarget name fs target (quietEnv now base)).2.stat name
          = some { size := src.data.length, modTime := now } := by
  have hne : name ≠ filepathJoin (pathDir name) base := fun h => hfresh h.symm
  have hb : (filepathJoin (pathDir name) base == name) = false := by simpa using hfresh
  have hb2 : (name == filepathJoin (pathDir name) base) = false := by simpa using hne
  simp only [updateTarget, Tree.stat, hsrc, Option.map_some', quietEnv]
  rw [if_neg (by simpa [Tree.stat] using hdiff)]
  simp [Tree.rename, Tree.put, List.lookup, Tree.stat, Tree.remove, hb, hb2, hfresh, hne]

/-- After a copy made at a time other than the source's modification time,
a second fault-free call copies again: the destination then carries the time
of the second write. -/
theorem updateTarget_second_run_stat (name : String) (fs target : Tree) (now1 now2 : Nat)
    (base1 base2 : String) (src : FileData) (hsrc : List.lookup name fs = some src)
    (hdiff : target.stat name ≠ some { size := src.data.length, modTime := src.modTime })
    (hfresh1 : filepathJoin (pathDir name) base1 ≠ name)
    (hfresh2 : filepathJoin (pathDir name) base2 ≠ name)
    (htime : now1 ≠ src.modTime) :
    (updateTarget name fs (updateTarget name fs target (quietEnv now1 base1)).2
        (quietEnv now2 base2)).2.stat name
      = some { size := src.data.length, modTime := now2 } := by
  have h1 := (updateTarget_copy_stat name fs target now1 base1 src hsrc hdiff hfresh1).2
  refine (updateTarget_copy_stat name fs _ now2 base2 src hsrc ?_ hfresh2).2
  rw [h1]
  simpa using htime

/-- C5: the code at the failing input. The source `images/logo.png` has 3
bytes and modification time 100 and is not touched. The first call, at time
200, copies it; the copy carries the time of the write, 200. The second
call, at time 300, finds the times different, copies again, and leaves the
destination with modification time 300: the target file system has changed. -/
theorem updateTarget_second_run_writes :
    (updateTarget "images/logo.png" logoSource [] (quietEnv 200 ".image1")
        = (.ok, [("images/logo.png", { data := [137, 80, 78], modTime := 200 })]))
      ∧ (updateTarget "images/logo.png" logoSource
          [("images/logo.png", { data := [137, 80, 78], modTime := 200 })]
          (quietEnv 300 ".image2")
        = (.ok, [("images/logo.png", { data := [137, 80, 78], modTime := 300 })]))
      ∧ Tree.stat [("images/logo.png", { data := [137, 80, 78], modTime := 200 })]
          "images/logo.png" = some { size := 3, modTime := 200 }
      ∧ Tree.stat [("images/logo.png", { data := [137, 80, 78], modTime := 300 })]
          "images/logo.png" = some { size := 3, modTime := 300 } := by
  refine ⟨by decide, by decide, by decide, by decide⟩

/-! ### Claims on the live monitor -/

theorem monitorRun_append {σ : Type} (s : MonState σ) (a b : List (Wake σ)) :
    monitorRun s (a ++ b) = (monitorRun s a).bind fun s1 => monitorRun s1 b := by
  induction a generalizing s with
  | nil => simp [monitorRun]
  | cons w ws ih =>
    simp only [List.cons_append, monitorRun]
    split
    · exact ih _
    · simp

/-- Events that arrive no later than `ts` start no rebuild: they leave `ts`
and the log as they are and arm the timer for `ts`. -/
theorem monitorRun_quiet {σ : Type} (s : MonState σ) (rest : List (Wake σ))
    (hrest : ∀ w ∈ rest, w.isEvent = true ∧ w.now ≤ s.ts) :
    ∃ s1, monitorRun s rest = some s1 ∧ s1.rebuilds = s.rebuilds ∧ s1.ts = s.ts
      ∧ s1.httpFs = s.httpFs
      ∧ s1.timer = (if rest.isEmpty then s.timer else some s.ts) := by
  induction rest generalizing s with
  | nil => exact ⟨s, rfl, rfl, rfl, rfl, by simp⟩
  | cons w ws ih =>
    obtain ⟨hev, hnow⟩ := hrest w (List.mem_cons_self _ _)
    obtain ⟨kind, now, build⟩ := w
    cases kind with
    | timer => simp [Wake.isEvent] at hev
    | event op name =>
      have hstep : (monitorStep s ⟨.event op name, now, build⟩).ts = s.ts
          ∧ (monitorStep s ⟨.event op name, now, build⟩).rebuilds = s.rebuilds
          ∧ (monitorStep s ⟨.event op name, now, build⟩).httpFs = s.httpFs
          ∧ (monitorStep s ⟨.event op name, now, build⟩).timer = some s.ts := by
        have hno : ¬ s.ts < now := Nat.not_lt.2 hnow
        simp only [monitorStep, monitorSelect]
        split_ifs <;> simp_all
      obtain ⟨s1, h1, h2, h3, h4, h5⟩ := ih (monitorStep s ⟨.event op name, now, build⟩)
        (fun x hx => by
          have := hrest x (List.mem_cons_of_mem _ hx)
          rw [hstep.1]
          exact this)
      refine ⟨s1, ?_, ?_, ?_, ?_, ?_⟩
      · simp [monitorRun, Wake.admissible, h1]
      · rw [h2, hstep.2.1]
      · rw [h3, hstep.1]
      · rw [h4, hstep.2.2.1]
      · rw [h5, hstep.1, hstep.2.2.2]
        simp

/-- C6, the claim as stated fails: a single event at 1 s after an idle
start is rebuilt at 1 s, not at 3 s; a burst of three events at 1 s, 1.5 s
and 1.9 s is rebuilt twice, at 1 s and when the timer set for 3 s fires, and
never at 3.9 s. Both runs end with the timer stopped. -/
theorem monitor_burst_not_debounced :
    ((monitorRun (monitorInit 0 [] 0) [writeEvent 1000000000 1]).map
        fun s => (s.rebuilds, s.timer)) = some ([1000000000], none)
      ∧ ((monitorRun (monitorInit 0 [] 0)
          [writeEvent 1000000000 1, writeEvent 1500000000 2, writeEvent 1900000000 3,
            timerFire 3000000001 4]).map
        fun s => (s.rebuilds, s.timer)) = some ([1000000000, 3000000001], none)
      ∧ [1000000000] ≠ [1000000000 + 2 * second]
      ∧ [1000000000, 3000000001] ≠ [1900000000 + 2 * second] := by
  refine ⟨by decide, by decide, by decide, by decide⟩

/-- C6, amended: for a burst whose first event arrives after `ts` and whose
other events arrive no later than two seconds after the first, the loop
rebuilds at once on the first event; the other events start no rebuild and
arm the timer for two seconds after the first event; when there are such
events and the timer then fires after that instant, the loop rebuilds once
more and stops the timer. -/
theorem monitor_burst_rebuilds {σ : Type} (s : MonState σ) (e : Wake σ)
    (rest : List (Wake σ)) (he : e.isEvent = true) (hts : s.ts < e.now)
    (hrest : ∀ w ∈ rest, w.isEvent = true ∧ w.now ≤ e.now + 2 * second) :
    ∃ s1, monitorRun s (e :: rest) = some s1
      ∧ s1.rebuilds = s.rebuilds ++ [e.now]
      ∧ s1.ts = e.now + 2 * second
      ∧ s1.timer = (if rest.isEmpty then none else some (e.now + 2 * second))
      ∧ (∀ t : Wake σ, t.kind = .timer → rest ≠ [] → e.now + 2 * second < t.now →
          ∃ s2, monitorRun s ((e :: rest) ++ [t]) = some s2
            ∧ s2.rebuilds = s.rebuilds ++ [e.now, t.now]
            ∧ s2.timer = none) := by
  obtain ⟨kind, now, build⟩ := e
  cases kind with
  | timer => simp [Wake.isEvent] at he
  | event op name =>
    simp only at hts hrest
    have hstep : (monitorStep s ⟨.event op name, now, build⟩).ts = now + 2 * second
        ∧ (monitorStep s ⟨.event op name, now, build⟩).rebuilds = s.rebuilds ++ [now]
        ∧ (monitorStep s ⟨.event op name, now, build⟩).timer = none := by
      simp only [monitorStep, monitorSelect]
      split_ifs <;> simp_all
    obtain ⟨s1, h1, h2, h3, _, h5⟩ :=
      monitorRun_quiet (monitorStep s ⟨.event op name, now, build⟩) rest
        (fun x hx => by rw [hstep.1]; exact hrest x hx)
    have hrun : monitorRun s (⟨.event op name, now, build⟩ :: rest) = some s1 := by
      simp [monitorRun, Wake.admissible, h1]
    refine ⟨s1, hrun, ?_, ?_, ?_, ?_⟩
    · rw [h2, hstep.2.1]
    · rw [h3, hstep.1]
    · rw [h5, hstep.2.2, hstep.1]
    · intro t ht hne hlate
      obtain ⟨tk, tnow, tbuild⟩ := t
      simp only at ht hlate
      subst ht
      have htimer : s1.timer = some (now + 2 * second) := by
        rw [h5, hstep.1]
        cases rest with
        | nil => exact absurd rfl hne
        | cons x xs => simp
      have hts1 : s1.ts = now + 2 * second := by rw [h3, hstep.1]
      refine ⟨monitorStep s1 ⟨.timer, tnow, tbuild⟩, ?_, ?_, ?_⟩
      · rw [monitorRun_append, hrun]
        simp [monitorRun, Wake.admissible, htimer, Nat.le_of_lt hlate]
      · have : (monitorStep s1 ⟨.timer, tnow, tbuild⟩).rebuilds = s1.rebuilds ++ [tnow] := by
          simp [monitorStep, monitorSelect, hts1, hlate]
        rw [this, h2, hstep.2.1]
        simp
      · simp [monitorStep, monitorSelect, hts1, hlate]

/-- Witness of the amended C6: three events at 1 s, 1.5 s and 1.9 s, then
the timer firing just after 3 s. -/
theorem monitor_burst_rebuilds_witness :
    (writeEvent 1000000000 1).isEvent = true
      ∧ (monitorInit 0 [] 0 : MonState Nat).ts < (writeEvent 1000000000 1).now
      ∧ (∀ w ∈ [writeEvent 1500000000 2, writeEvent 1900000000 3],
          w.isEvent = true ∧ w.now ≤ (writeEvent 1000000000 1).now + 2 * second)
      ∧ (∃ s1, monitorRun (monitorInit 0 [] 0)
            (writeEvent 1000000000 1 :: [writeEvent 1500000000 2, writeEvent 1900000000 3])
              = some s1
          ∧ s1.rebuilds = [1000000000]
          ∧ s1.timer = some 3000000000)
      ∧ ∃ s2, monitorRun (monitorInit 0 [] 0)
            ((writeEvent 1000000000 1 :: [writeEvent 1500000000 2, writeEvent 1900000000 3])
              ++ [timerFire 3000000001 4]) = some s2
          ∧ s2.rebuilds = [1000000000, 3000000001]
          ∧ s2.timer = none := by
  have hr : ∀ w ∈ [writeEvent 1500000000 2, writeEvent 1900000000 3],
      w.isEvent = true ∧ w.now ≤ (writeEvent 1000000000 1).now + 2 * second := by
    intro w hw
    simp only [List.mem_cons, List.mem_singleton, List.not_mem_nil, or_false] at hw
    rcases hw with rfl | rfl <;> decide
  obtain ⟨s1, h1, h2, _, h4, h5⟩ :=
    monitor_burst_rebuilds (monitorInit 0 [] 0) (writeEvent 1000000000 1)
      [writeEvent 1500000000 2, writeEvent 1900000000 3] (by decide) (by decide) hr
  obtain ⟨s2, k1, k2, k3⟩ := h5 (timerFire 3000000001 4) rfl (by simp) (by decide)
  exact ⟨by decide, by decide, hr,
    ⟨s1, h1, by simpa [monitorInit] using h2, by simpa [writeEvent, second] using h4⟩,
    ⟨s2, k1, by simpa [monitorInit, writeEvent, timerFire] using k2, k3⟩⟩

/-! ### Claims on the table of contents -/

/-- C7: the code at the failing inputs. For the headings of `# Intro`,
`## Details`, `# Errors` the markup opens three `<li>` and closes two: the
item of `Intro` is never closed. For a single level-2 heading the markup
closes a `<ul>` that was never opened. Neither is well nested. -/
theorem produceTOC_not_well_nested :
    produceTOC sampleHeadings
        = "<li>\n<a href=\"#intro\" class=\"toc-h1 toc-link\" data-title=\"Intro\">Intro</a>\n"
          ++ "<ul class=\"toc-list-h2\">\n"
          ++ "<li>\n<a href=\"#details\" class=\"toc-h2 toc-link\" data-title=\"Details\">Details</a>\n"
          ++ "</li>\n</ul>\n"
          ++ "<li>\n<a href=\"#errors\" class=\"toc-h1 toc-link\" data-title=\"Errors\">Errors</a>\n"
          ++ "</li>\n"
      ∧ tagsOf (produceTOC sampleHeadings).data
          = [.liOpen, .ulOpen, .liOpen, .liClose, .ulClose, .liOpen, .liClose]
      ∧ wellNested (produceTOC sampleHeadings) = false
      ∧ tagsOf (produceTOC [{ Level := 2, HeadingID := "x", Title := "X" }]).data
          = [.liOpen, .liClose, .ulClose, .liClose]
      ∧ wellNested (produceTOC [{ Level := 2, HeadingID := "x", Title := "X" }]) = false := by
  refine ⟨by decide, by decide, by decide, by decide, by decide⟩

theorem tocLoop_level2 (hs : List Heading) (hsl : ∀ h ∈ hs, h.Level = 2) (buf : String) :
    tocLoop hs 2 buf = (2, buf ++ concatS (hs.map fun h => "</li>\n" ++ tocItem h)) := by
  induction hs generalizing buf with
  | nil => simp [tocLoop, concatS]
  | cons h hs ih =>
    have hl : h.Level = 2 := hsl h (List.mem_cons_self _ _)
    have ht : tocTransition 2 2 = "</li>\n" := by decide
    simp only [tocLoop, hl, ht, List.map_cons, concatS]
    rw [ih (fun x hx => hsl x (List.mem_cons_of_mem _ hx))]
    simp [String.append_assoc]

theorem concatS_shift (hs : List Heading) :
    concatS (hs.map fun h => "</li>\n" ++ tocItem h) ++ "</li>\n"
      = "</li>\n" ++ concatS (hs.map fun h => tocItem h ++ "</li>\n") := by
  induction hs with
  | nil => simp [concatS]
  | cons h hs ih => simp only [List.map_cons, concatS, String.append_assoc, ih]

/-- C8: for one level-1 heading followed by `k ≥ 1` level-2 headings,
`produceTOC` writes the item of the level-1 heading, one
`<ul class="toc-list-h2">` holding the `k` items of the level-2 headings in
document order, each closed, then the end of the list and of the top-level
item; every item is an anchor whose `href` is `#` followed by the heading's
id. -/
theorem produceTOC_one_section (h1 : Heading) (hs : List Heading)
    (h1l : h1.Level = 1) (hsl : ∀ h ∈ hs, h.Level = 2) (hne : hs ≠ []) :
    produceTOC (h1 :: hs)
        = tocItem h1 ++ "<ul class=\"toc-list-h2\">\n"
          ++ concatS (hs.map fun h => tocItem h ++ "</li>\n")
          ++ "</ul>\n" ++ "</li>\n"
      ∧ tocItem h1
          = "<li>\n<a href=\"#" ++ h1.HeadingID ++ "\" class=\"toc-h1 toc-link\" data-title=\""
            ++ escapeString h1.Title ++ "\">" ++ escapeString h1.Title ++ "</a>\n"
      ∧ ∀ h ∈ hs, tocItem h
          = "<li>\n<a href=\"#" ++ h.HeadingID ++ "\" class=\"toc-h2 toc-link\" data-title=\""
            ++ escapeString h.Title ++ "\">" ++ escapeString h.Title ++ "</a>\n" := by
  have d1 : toString 1 = "1" := by decide
  have d2 : toString 2 = "2" := by decide
  refine ⟨?_, ?_, ?_⟩
  · cases hs with
    | nil => exact absurd rfl hne
    | cons h hs =>
      have hl : h.Level = 2 := hsl h (List.mem_cons_self _ _)
      have t01 : tocTransition 0 1 = "" := by decide
      have t12 : tocTransition 1 2 = "<ul class=\"toc-list-h2\">\n" := by decide
      have tc : tocClose 2 = "</li>\n" ++ ("</ul>\n" ++ "</li>\n") := by decide
      simp only [produceTOC, tocLoop, h1l, hl, t01, t12]
      rw [tocLoop_level2 hs (fun x hx => hsl x (List.mem_cons_of_mem _ hx))]
      simp only [tc, List.map_cons, concatS, String.append_assoc]
      rw [← String.append_assoc (concatS _) "</li>\n", concatS_shift]
      simp [String.append_assoc]
  · have e : "\" class=\"toc-h1 toc-link\" data-title=\""
        = "\" class=\"toc-h" ++ ("1" ++ " toc-link\" data-title=\"") := by decide
    simp only [tocItem, h1l, d1, e, String.append_assoc]
  · intro h hh
    have e : "\" class=\"toc-h2 toc-link\" data-title=\""
        = "\" class=\"toc-h" ++ ("2" ++ " toc-link\" data-title=\"") := by decide
    simp only [tocItem, hsl h hh, d2, e, String.append_assoc]

/-- Witness of C8: the headings of `# Intro`, `## Details`. -/
theorem produceTOC_one_section_witness :
    introHeading.Level = 1
      ∧ (∀ h ∈ [detailsHeading], h.Level = 2)
      ∧ [detailsHeading] ≠ []
      ∧ produceTOC (introHeading :: [detailsHeading])
        = tocItem introHeading ++ "<ul class=\"toc-list-h2\">\n"
          ++ concatS ([detailsHeading].map fun h => tocItem h ++ "</li>\n")
          ++ "</ul>\n" ++ "</li>\n"
      ∧ produceTOC (introHeading :: [detailsHeading])
        = "<li>\n<a href=\"#intro\" class=\"toc-h1 toc-link\" data-title=\"Intro\">Intro</a>\n"
          ++ "<ul class=\"toc-list-h2\">\n"
          ++ "<li>\n<a href=\"#details\" class=\"toc-h2 toc-link\" data-title=\"Details\">Details</a>\n"
          ++ "</li>\n" ++ "</ul>\n" ++ "</li>\n" :=
  ⟨by decide, by decide, by decide,
    (produceTOC_one_section introHeading [detailsHeading]
      (by decide) (by decide) (by decide)).1,
    by decide⟩

/-! ### Claims on the content loader -/

theorem foldl_scanStep_body (ls : List String) (p b : String) :
    ls.foldl scanStep { state := 2, preamble := p, buf := b }
      = { state := 2, preamble := p, buf := b ++ writeLines ls } := by
  induction ls generalizing b with
  | nil => simp [writeLines, concatS]
  | cons l ls ih =>
    simp only [List.foldl_cons, scanStep, ih, writeLines_cons, String.append_assoc]

theorem foldl_scanStep_preamble (ls : List String) (p b : String) :
    ls.foldl scanStep { state := 1, preamble := p, buf := b }
      = { state := if "---" ∈ ls then 2 else 1,
          preamble := p ++ writeLines (ls.takeWhile fun l => l ≠ "---"),
          buf := b ++ writeLines ((ls.dropWhile fun l => l ≠ "---").drop 1) } := by
  induction ls generalizing p with
  | nil => simp [writeLines, concatS]
  | cons l ls ih =>
    by_cases hl : l = "---"
    · subst hl
      simp [scanStep, foldl_scanStep_body, writeLines, concatS]
    · have hl2 : ¬ "---" = l := fun h => hl h.symm
      simp [scanStep, hl, hl2, ih, writeLines_cons, String.append_assoc]

/-- C9: the scanner of `load` splits the lines of the entry file thus. When
the first line is not exactly `---` (or there is none) the preamble is empty
and the body is every line. When the first line is `---` the preamble is the
lines after it up to the next `---` line and the body is every line after
that second delimiter, later `---` lines included. -/
theorem scanFrontMatter_split (lines : List String) :
    (scanFrontMatter lines).preamble
        = (if lines.head? = some "---"
            then writeLines (lines.tail.takeWhile fun l => l ≠ "---") else "")
      ∧ (scanFrontMatter lines).buf
        = (if lines.head? = some "---"
            then writeLines ((lines.tail.dropWhile fun l => l ≠ "---").drop 1)
            else writeLines lines) := by
  cases lines with
  | nil => simp [scanFrontMatter, writeLines, concatS]
  | cons l ls =>
    by_cases hl : l = "---"
    · subst hl
      simp [scanFrontMatter, scanStep, foldl_scanStep_preamble]
    · simp [scanFrontMatter, scanStep, hl, foldl_scanStep_body, writeLines_cons,
        String.append_assoc]

/-- C10: the overrides of `load`. The resolved search flag is `*Params.Search`
when set and the front-matter value when nil, the same for RTL; the resolved
logo is `Params.LogoFile` when not empty and the front-matter logo
otherwise; every other field of the front matter is unchanged. -/
theorem applyParams_overrides (params : Params) (c : ContentParams) :
    (applyParams params c).Search = params.Search.getD c.Search
      ∧ (applyParams params c).RTLEnabled = params.RTL.getD c.RTLEnabled
      ∧ (applyParams params c).Logo
          = (if params.LogoFile ≠ "" then params.LogoFile else c.Logo)
      ∧ (applyParams params c).Title = c.Title
      ∧ (applyParams params c).Highlight = c.Highlight
      ∧ (applyParams params c).Langs = c.Langs
      ∧ (applyParams params c).TocFooters = c.TocFooters
      ∧ (applyParams params c).Includes = c.Includes
      ∧ (applyParams params c).Style = c.Style
      ∧ (applyParams params c).HTMLHead = c.HTMLHead := by
  obtain ⟨mh, mj, mc, sf, lf, se, rtl⟩ := params
  cases se <;> cases rtl <;> by_cases hlf : lf = "" <;> simp [applyParams, hlf]

/-! ### Claims on the atomic-write producers -/

theorem Tree.remove_of_lookup_none (t : Tree) (a : String) (h : List.lookup a t = none) :
    t.remove a = t := by
  induction t with
  | nil => simp [Tree.remove]
  | cons e t ih =>
    obtain ⟨k, v⟩ := e
    by_cases hk : a = k
    · subst hk
      simp [List.lookup] at h
    · have hb : (a == k) = false := by simpa using hk
      simp only [List.lookup, hb] at h
      have hk2 : ¬ k = a := fun hc => hk hc.symm
      have hcons : Tree.remove ((k, v) :: t) a = (k, v) :: Tree.remove t a := by
        simp [Tree.remove, List.filter_cons, hk2]
      rw [hcons, ih h]

theorem Tree.remove_put (t : Tree) (a : String) (f : FileData) :
    (t.put a f).remove a = t.remove a := by
  simp [Tree.put, Tree.remove, List.filter_cons, List.filter_filter]

theorem Tree.lookup_put (t : Tree) (a : String) (f : FileData) :
    List.lookup a (t.put a f) = some f := by
  simp [Tree.put, List.lookup]

/-- After the temporary file was created, every failure of
`content.produce` leaves the target as it was. -/
theorem content.produce_failure (c : content) (target : Tree) (minifyHTML : Bool)
    (env : WriteEnv) (base : String) (htemp : env.temp = some base)
    (hfresh : List.lookup base target = none)
    (hfault : (minifyHTML = true ∧ env.minify c.html = none) ∨ env.writeFails = true
      ∨ env.closeFails = true ∨ env.renameFails = true) :
    ∃ msg, c.produce target minifyHTML env = (.error msg, target) := by
  have r1 : (target.put base { data := [], modTime := env.now }).remove base = target := by
    rw [Tree.remove_put, Tree.remove_of_lookup_none _ _ hfresh]
  have r2 : ∀ f, ((target.put base { data := [], modTime := env.now }).put base f).remove base
      = target := by
    intro f
    rw [Tree.remove_put, r1]
  simp only [content.produce, htemp]
  cases hm : (if minifyHTML = true then env.minify c.html else some c.html) with
  | none => exact ⟨"minify", by simp [r1]⟩
  | some result =>
    have hnm : ¬ (minifyHTML = true ∧ env.minify c.html = none) := by
      rintro ⟨h1, h2⟩
      simp [h1, h2] at hm
    simp only []
    by_cases hw : env.writeFails = true
    · exact ⟨"write", by simp [hw, r1]⟩
    · by_cases hc : env.closeFails = true
      · exact ⟨"close", by simp [hw, hc, r2]⟩
      · have hr : env.renameFails = true := by
          rcases hfault with h | h | h | h
          · exact absurd h hnm
          · exact absurd h hw
          · exact absurd h hc
          · exact h
        exact ⟨"rename", by simp [hw, hc, hr, r2]⟩

/-- Every failure of `produceJavaScript` in a call whose `TempFile` succeeds
leaves the target as it was. -/
theorem produceJavaScript_failure (fs : FileSystem) (src : String) (target : Tree)
    (minifyJs : Bool) (env : WriteEnv) (base : String) (htemp : env.temp = some base)
    (hfresh : List.lookup (filepathJoin "javascripts" base) target = none)
    (hfault : env.writeFails = true ∨ env.closeFails = true ∨ env.renameFails = true) :
    ∃ msg, produceJavaScript fs src target minifyJs env = (.error msg, target) := by
  have r1 : (target.put (filepathJoin "javascripts" base)
      { data := [], modTime := env.now }).remove (filepathJoin "javascripts" base)
        = target := by
    rw [Tree.remove_put, Tree.remove_of_lookup_none _ _ hfresh]
  have r2 : ∀ f, ((target.put (filepathJoin "javascripts" base)
      { data := [], modTime := env.now }).put (filepathJoin "javascripts" base) f).remove
        (filepathJoin "javascripts" base) = target := by
    intro f
    rw [Tree.remove_put, r1]
  simp only [produceJavaScript]
  cases hb : bundle fs src with
  | error e => exact ⟨"loadJS", rfl⟩
  | ok st =>
    simp only []
    cases hm : (if minifyJs = true then env.minify st.buffer else some st.buffer) with
    | none => exact ⟨"minify", rfl⟩
    | some result =>
      simp only [htemp]
      by_cases hw : env.writeFails = true
      · exact ⟨"write", by simp [hw, r1]⟩
      · by_cases hc : env.closeFails = true
        · exact ⟨"close", by simp [hw, hc, r2]⟩
        · have hr : env.renameFails = true := by
            rcases hfault with h | h | h
            · exact absurd h hw
            · exact absurd h hc
            · exact h
          exact ⟨"rename", by simp [hw, hc, hr, r2]⟩

/-- C11: in a call of `content.produce` or `produceJavaScript` whose
`TempFile` created a new file, when a later step fails (minification in
`content.produce`, `Write`, `Close` or `Rename` in both) the call returns an
error and the target file system is exactly as before the call: the final
path is untouched and the temporary file is gone. In `produceJavaScript`
minification comes before `TempFile`: when it fails the call returns the
error and has created no file. -/
theorem atomic_write_failure (target : Tree) (env : WriteEnv) (base : String)
    (htemp : env.temp = some base) :
    (∀ (c : content) (minifyHTML : Bool), List.lookup base target = none →
        ((minifyHTML = true ∧ env.minify c.html = none) ∨ env.writeFails = true
          ∨ env.closeFails = true ∨ env.renameFails = true) →
        ∃ msg, c.produce target minifyHTML env = (.error msg, target))
      ∧ (∀ (fs : FileSystem) (src : String) (minifyJs : Bool),
        List.lookup (filepathJoin "javascripts" base) target = none →
        (env.writeFails = true ∨ env.closeFails = true ∨ env.renameFails = true) →
        ∃ msg, produceJavaScript fs src target minifyJs env = (.error msg, target))
      ∧ (∀ (fs : FileSystem) (src : String) (st : LoadState),
        bundle fs src = .ok st → env.minify st.buffer = none →
        produceJavaScript fs src target true env = (.error "minify", target)) :=
  ⟨fun c m hf hfault => content.produce_failure c target m env base htemp hf hfault,
    fun fs src m hf hfault => produceJavaScript_failure fs src target m env base htemp hf hfault,
    fun fs src st hb hm => by simp [produceJavaScript, hb, hm]⟩

/-- Witness of C11: `Rename` fails over a target that holds an older page
and an older bundle. -/
theorem atomic_write_failure_witness :
    (renameFailsEnv 200 ".slate1").temp = some ".slate1"
      ∧ List.lookup ".slate1" builtTarget = none
      ∧ List.lookup (filepathJoin "javascripts" ".slate1") builtTarget = none
      ∧ (∃ msg, samplePage.produce builtTarget false (renameFailsEnv 200 ".slate1")
          = (.error msg, builtTarget))
      ∧ (∃ msg, produceJavaScript sharedFS "e1.js" builtTarget false
          (renameFailsEnv 200 ".slate1") = (.error msg, builtTarget)) :=
  ⟨rfl, by decide, by decide,
    (atomic_write_failure builtTarget (renameFailsEnv 200 ".slate1") ".slate1" rfl).1
      samplePage false (by decide) (Or.inr (Or.inr (Or.inr rfl))),
    (atomic_write_failure builtTarget (renameFailsEnv 200 ".slate1") ".slate1" rfl).2.1
      sharedFS "e1.js" false (by decide) (Or.inr (Or.inr rfl))⟩

/-- When `TempFile` fails after the bundle was built, `produceJavaScript`
does not return: it dereferences the nil file. -/
theorem produceJavaScript_no_temp (fs : FileSystem) (src : String) (target : Tree)
    (env : WriteEnv) (st : LoadState) (hb : bundle fs src = .ok st)
    (htemp : env.temp = none) :
    produceJavaScript fs src target false env
      = (.panic "nil dereference: file.Name()", target) := by
  simp [produceJavaScript, hb, htemp]

/-- C12: the code at the failing input, a target file system whose
`TempFile` fails. `produceJavaScript`, `updateTarget` and the stylesheet
step call `Name()` on the nil file before they look at the error, and end in
a run-time panic instead of returning the error; `content.produce`, which
checks the error first, returns it. -/
theorem tempfile_failure_panics :
    produceJavaScript sharedFS "e1.js" [] false noTempEnv
        = (.panic "nil dereference: file.Name()", [])
      ∧ updateTarget "images/logo.png" logoSource [] noTempTargetEnv
        = (.panic "nil dereference: dst.Name()", [])
      ∧ compileStylesheet "screen.css" styleSource [] noTempStyleEnv
        = (.panic "nil dereference: dst.Name()", [])
      ∧ samplePage.produce [] false noTempEnv = (.error "tempfile", []) := by
  refine ⟨by decide, by decide, by decide, by decide⟩

/-! ### Claims on the monitor's snapshot -/

theorem monitorSelect_ts {σ : Type} (s : MonState σ) (kind : WakeKind) :
    (monitorSelect s kind).ts = s.ts ∧ (monitorSelect s kind).httpFs = s.httpFs := by
  cases kind with
  | timer => simp [monitorSelect]
  | event op name =>
    simp only [monitorSelect]
    split_ifs <;> simp

/-- C13: an iteration of the monitor loop whose rebuild returns an error
leaves `*httpFs` as it was; an iteration replaces it, by the tree just
built, exactly when it rebuilds (`now.After(ts)`) and the rebuild returns no
error; in either case the loop goes on with the next wake-up. -/
theorem monitor_snapshot (σ : Type) (s : MonState σ) (kind : WakeKind) (now : Nat) :
    (monitorStep s { kind := kind, now := now, build := none }).httpFs = s.httpFs
      ∧ (∀ fs : σ, (monitorStep s { kind := kind, now := now, build := some fs }).httpFs
          = if s.ts < now then fs else s.httpFs)
      ∧ (∀ (b : Option σ) (ws : List (Wake σ)),
          monitorRun s ({ kind := kind, now := now, build := b } :: ws)
            = if (Wake.admissible s { kind := kind, now := now, build := b }) = true
              then monitorRun (monitorStep s { kind := kind, now := now, build := b }) ws
              else none) := by
  obtain ⟨h1, h2⟩ := monitorSelect_ts s kind
  refine ⟨?_, ?_, ?_⟩
  · simp only [monitorStep, h1]
    split_ifs <;> simp [h2]
  · intro fs
    simp only [monitorStep, h1]
    split_ifs <;> simp [h2]
  · intro b ws
    simp [monitorRun]

/-! ### Claims on the command-line options -/

theorem setFlag_search (opts : generateOptions) (arg : FlagArg) :
    (setFlag opts arg).search = opts.search := by
  cases arg with
  | bool name v => simp only [setFlag]; split_ifs <;> rfl
  | str name v => simp only [setFlag]; split_ifs <;> rfl
  | strs name vs => simp only [setFlag]; split_ifs <;> rfl

theorem foldl_setFlag_search (args : List FlagArg) (opts : generateOptions) :
    (args.foldl setFlag opts).search = opts.search := by
  induction args generalizing opts with
  | nil => rfl
  | cons a rest ih => rw [List.foldl_cons, ih, setFlag_search]

theorem setNoMinify_search (ls : List String) (params : Params) :
    (setNoMinify ls params).2.Search = params.Search := by
  induction ls generalizing params with
  | nil => rfl
  | cons l rest ih =>
    simp only [setNoMinify]
    split_ifs <;> simp [ih]

/-- No command line makes `setParams` enable search: no flag is bound to
`opts.search`. -/
theorem setParams_never_enables_search (args : List FlagArg) :
    (setParams zeroParams (genOpts args)).2.Search ≠ some true := by
  have hs : (genOpts args).search = false := foldl_setFlag_search args _
  simp only [setParams, hs]
  by_cases hn : (genOpts args).noSearch = true <;>
    by_cases hr : (genOpts args).rtl = true <;>
    by_cases hnr : (genOpts args).noRtl = true <;>
    simp [hn, hr, hnr, setNoMinify_search, zeroParams]

/-- C14: the code at the failing input, the command line `--search`.
`genOpts` binds `--search` to `opts.noSearch`, so `opts.search` stays false
and `setParams` sets `Params.Search` to false. `--no-search` gives false
and no flag gives nil, as claimed; `--rtl`, bound to its own variable, gives
true. -/
theorem search_flag_disables_search :
    (genOpts [.bool "search" true]).search = false
      ∧ (genOpts [.bool "search" true]).noSearch = true
      ∧ (setParams zeroParams (genOpts [.bool "search" true])).1 = none
      ∧ (setParams zeroParams (genOpts [.bool "search" true])).2.Search = some false
      ∧ (setParams zeroParams (genOpts [.bool "no-search" true])).2.Search = some false
      ∧ (setParams zeroParams (genOpts [])).2.Search = none
      ∧ (setParams zeroParams (genOpts [.bool "rtl" true])).2.RTL = some true := by
  refine ⟨by decide, by decide, by decide, by decide, by decide, by decide, by decide⟩

/-! ### Claims on `copyJavaScripts` -/

theorem copyJavaScriptsLoop_eq (fs : FileSystem) (search minifyJs : Bool)
    (env : String → WriteEnv) (files : List String) (target : Tree) :
    copyJavaScriptsLoop fs search minifyJs env files target
      = produceAll (fun f t => produceJavaScript fs f t minifyJs (env f))
          (files.filter (jsSelected search)) target := by
  induction files generalizing target with
  | nil => simp [copyJavaScriptsLoop, produceAll]
  | cons f rest ih =>
    by_cases h1 : f = "all.js" ∧ search = false
    · have hsel : jsSelected search f = false := by
        rw [h1.1, h1.2]; decide
      rw [copyJavaScriptsLoop, if_pos h1, List.filter_cons, hsel]
      simp only [Bool.false_eq_true, if_false]
      exact ih target
    · by_cases h2 : f = "all_nosearch.js" ∧ search = true
      · have hsel : jsSelected search f = false := by
          rw [h2.1, h2.2]; decide
        rw [copyJavaScriptsLoop, if_neg h1, if_pos h2, List.filter_cons, hsel]
        simp only [Bool.false_eq_true, if_false]
        exact ih target
      · have hsel : jsSelected search f = true := by
          simp only [jsSelected, Bool.and_eq_true, Bool.not_eq_true', Bool.and_eq_false_iff,
            decide_eq_false_iff_not, Bool.not_eq_false', decide_eq_true_eq]
          constructor
          · by_cases hf : f = "all.js"
            · right
              cases search
              · exact absurd ⟨hf, rfl⟩ h1
              · rfl
            · left; exact hf
          · by_cases hf : f = "all_nosearch.js"
            · right
              cases search
              · rfl
              · exact absurd ⟨hf, rfl⟩ h2
            · left; exact hf
        rw [copyJavaScriptsLoop, if_neg h1, if_neg h2, List.filter_cons, hsel]
        simp only [if_true, produceAll]
        cases hp : produceJavaScript fs f target minifyJs (env f) with
        | mk out t1 =>
          cases out with
          | ok => simp only []; exact ih t1
          | error msg => rfl
          | panic msg => rfl

theorem mem_jsFilesOf (jsFiles : List DirEntry) (name : String) :
    name ∈ jsFilesOf jsFiles
      ↔ ∃ e ∈ jsFiles, e.Name = name ∧ e.IsDir = false ∧ hasSuffix e.Name ".js" = true := by
  induction jsFiles with
  | nil => simp [jsFilesOf]
  | cons e rest ih =>
    by_cases hc : (!e.IsDir && hasSuffix e.Name ".js") = true
    · rw [jsFilesOf, if_pos hc]
      simp only [List.mem_cons, ih, exists_eq_or_imp]
      have hc2 : e.IsDir = false ∧ hasSuffix e.Name ".js" = true := by simpa using hc
      constructor
      · rintro (h | h)
        · exact Or.inl ⟨h.symm, hc2⟩
        · exact Or.inr h
      · rintro (⟨h, _⟩ | h)
        · exact Or.inl h.symm
        · exact Or.inr h
    · rw [jsFilesOf, if_neg hc]
      simp only [List.mem_cons, ih, exists_eq_or_imp]
      have hc2 : ¬ (e.IsDir = false ∧ hasSuffix e.Name ".js" = true) := by simpa using hc
      constructor
      · intro h
        exact Or.inr h
      · rintro (⟨_, h⟩ | h)
        · exact absurd h hc2
        · exact h

/-- C15: `copyJavaScripts` runs `produceJavaScript`, in listing order and up
to the first failure, over exactly the names of the entries that are no
directory and end in `.js`, without `all.js` when search is disabled and
without `all_nosearch.js` when it is enabled; of the two aggregate files
exactly one passes the selection, for either value of the flag. -/
theorem copyJavaScripts_selection (fs : FileSystem) (jsFiles : List DirEntry)
    (target : Tree) (search minifyJs : Bool) (env : String → WriteEnv) :
    copyJavaScripts fs (some jsFiles) target search minifyJs env
        = produceAll (fun f t => produceJavaScript fs f t minifyJs (env f))
            ((jsFilesOf jsFiles).filter (jsSelected search)) target
      ∧ (∀ name, name ∈ (jsFilesOf jsFiles).filter (jsSelected search)
          ↔ ((∃ e ∈ jsFiles, e.Name = name ∧ e.IsDir = false
                ∧ hasSuffix e.Name ".js" = true)
              ∧ ¬ (name = "all.js" ∧ search = false)
              ∧ ¬ (name = "all_nosearch.js" ∧ search = true)))
      ∧ jsSelected search "all.js" = search
      ∧ jsSelected search "all_nosearch.js" = !search := by
  refine ⟨?_, ?_, ?_, ?_⟩
  · simp only [copyJavaScripts]
    exact copyJavaScriptsLoop_eq fs search minifyJs env _ target
  · intro name
    rw [List.mem_filter, mem_jsFilesOf]
    have hsel : jsSelected search name = true
        ↔ (¬ (name = "all.js" ∧ search = false)
            ∧ ¬ (name = "all_nosearch.js" ∧ search = true)) := by
      cases search <;> simp [jsSelected]
    rw [hsel]
  · cases search <;> decide
  · cases search <;> decide

/-- Witness of C15: a listing with both aggregate files, a directory whose
name ends in `.js` and a file that does not. -/
theorem copyJavaScripts_selection_witness :
    (jsFilesOf sampleListing).filter (jsSelected true) = ["all.js", "e1.js"]
      ∧ (jsFilesOf sampleListing).filter (jsSelected false) = ["all_nosearch.js", "e1.js"]
      ∧ copyJavaScripts sharedFS (some sampleListing) [] true false passEnv
        = produceAll (fun f t => produceJavaScript sharedFS f t false (passEnv f))
            ((jsFilesOf sampleListing).filter (jsSelected true)) [] :=
  ⟨by decide, by decide,
    (copyJavaScripts_selection sharedFS sampleListing [] true false passEnv).1⟩

/-! ### Claims on the independence of bundles -/

/-- A call of `produceJavaScript` without faults writes the bundle, minified
when asked, to `javascripts/<src>`, whatever the target held before. -/
theorem produceJavaScript_writes (fs : FileSystem) (src : String) (target : Tree)
    (minifyJs : Bool) (env : WriteEnv) (base : String) (st : LoadState) (result : String)
    (hb : bundle fs src = .ok st)
    (hm : (if minifyJs = true then env.minify st.buffer else some st.buffer) = some result)
    (htemp : env.temp = some base) (hw : env.writeFails = false)
    (hc : env.closeFails = false) (hr : env.renameFails = false)
    (hne : filepathJoin "javascripts" base ≠ filepathJoin "javascripts" src) :
    (produceJavaScript fs src target minifyJs env).1 = .ok
      ∧ List.lookup (filepathJoin "javascripts" src)
          (produceJavaScript fs src target minifyJs env).2
        = some { data := bytesOf result, modTime := env.now } := by
  have hne2 : filepathJoin "javascripts" src ≠ filepathJoin "javascripts" base :=
    fun h => hne h.symm
  simp only [produceJavaScript, hb, hm, htemp, hw, hc, hr]
  simp [Tree.rename, Tree.put, List.lookup, Tree.remove, hne, hne2]

/-- The bundle of an entry contains the body of every file it requires. -/
theorem bundle_contains_required (fs : FileSystem) (entry d : String) (st : LoadState)
    (hclosed : Closed fs) (hb : bundle fs entry = .ok st) (hd : Edge fs entry d) :
    ∃ pre post, st.buffer = pre ++ body fs d ++ post := by
  obtain ⟨st1, order, hb1, hv, init, hinit⟩ := bundle_visit fs entry hclosed (edge_opens hd)
  rw [hb] at hb1
  simp only [Except.ok.injEq] at hb1
  subst hb1
  have hmem : d ∈ order := by
    rcases hv.edges entry (by simp [hinit]) d hd with h | ⟨h, _⟩
    · simp at h
    · exact h
  obtain ⟨l1, l2, rfl⟩ := List.append_of_mem hmem
  refine ⟨concatS (l1.map (body fs)), concatS (l2.map (body fs)), ?_⟩
  rw [hv.buffer_eq]
  simp [List.map_append, concatS_append, concatS, String.append_assoc]

/-- C16: a call of `produceJavaScript` without faults starts from an empty
buffer and an empty included list: what it writes to `javascripts/<src>` is
the bundle of `src` alone, the same for every state of the target file
system, so whatever was bundled before; and the bundle of an entry contains
the body of every file the entry requires, so two entries that require the
same file each carry its body. -/
theorem produceJavaScript_independent (fs : FileSystem) (src : String) (minifyJs : Bool)
    (env : WriteEnv) (base : String) (st : LoadState) (result : String)
    (hb : bundle fs src = .ok st)
    (hm : (if minifyJs = true then env.minify st.buffer else some st.buffer) = some result)
    (htemp : env.temp = some base) (hw : env.writeFails = false)
    (hc : env.closeFails = false) (hr : env.renameFails = false)
    (hne : filepathJoin "javascripts" base ≠ filepathJoin "javascripts" src) :
    (∀ target : Tree,
        (produceJavaScript fs src target minifyJs env).1 = .ok
          ∧ List.lookup (filepathJoin "javascripts" src)
              (produceJavaScript fs src target minifyJs env).2
            = some { data := bytesOf result, modTime := env.now })
      ∧ (∀ d, Closed fs → Edge fs src d → ∃ pre post, st.buffer = pre ++ body fs d ++ post) :=
  ⟨fun target => produceJavaScript_writes fs src target minifyJs env base st result
      hb hm htemp hw hc hr hne,
    fun d hclosed hd => bundle_contains_required fs src d st hclosed hb hd⟩

/-- Witness of C16: `e2.js` of `sharedFS`, bundled into an empty target and
into the target left by the bundling of `e1.js`; after a whole pass both
bundles start with the body of `lib/d.js`. -/
theorem produceJavaScript_independent_witness :
    bundle sharedFS "e2.js"
        = .ok { buffer := "dep();\ntwo();\n", loaded := ["e2.js", "lib/d.js"] }
      ∧ (∀ target : Tree,
          (produceJavaScript sharedFS "e2.js" target false (passEnv "e2.js")).1 = .ok
            ∧ List.lookup (filepathJoin "javascripts" "e2.js")
                (produceJavaScript sharedFS "e2.js" target false (passEnv "e2.js")).2
              = some { data := bytesOf "dep();\ntwo();\n", modTime := (passEnv "e2.js").now })
      ∧ (copyJavaScripts sharedFS (some sharedListing) [] true false passEnv).1 = .ok
      ∧ List.lookup "javascripts/e1.js"
          (copyJavaScripts sharedFS (some sharedListing) [] true false passEnv).2
        = some { data := bytesOf ("dep();\n" ++ "one();\n"), modTime := 200 }
      ∧ List.lookup "javascripts/e2.js"
          (copyJavaScripts sharedFS (some sharedListing) [] true false passEnv).2
        = some { data := bytesOf ("dep();\n" ++ "two();\n"), modTime := 200 }
      ∧ body sharedFS "lib/d.js" = "dep();\n" :=
  ⟨by rfl,
    (produceJavaScript_independent sharedFS "e2.js" false (passEnv "e2.js") ".slate-e2.js"
      { buffer := "dep();\ntwo();\n", loaded := ["e2.js", "lib/d.js"] } "dep();\ntwo();\n"
      (by rfl) (by rfl) (by rfl) (by rfl) (by rfl) (by rfl) (by decide)).1,
    by decide, by decide, by decide, by decide⟩

/-! ### Claims on `load` -/

/-- The result of `load` does not depend on whether `tmpl.Execute` returned
an error. -/
theorem load_ignores_execute_error {τ : Type} (env : LoadEnv τ) (params : Params) :
    load { env with execute := fun t c toc con => ((env.execute t c toc con).1, true) } params
      = load env params := by
  rfl

/-- C17: the code at the failing input, a layout that parses and whose
expansion fails. `tmpl.Execute` returns an error after writing the start of
the page; `load` returns the content with that partial page and no error. -/
theorem load_returns_partial_page :
    (brokenLayoutEnv.execute "<html>\x7b\x7b.Params.Nope\x7d\x7d</html>" zeroContentParams
        (produceTOC [introHeading]) "<h1 id=\"intro\">Intro</h1>\n").2 = true
      ∧ load brokenLayoutEnv zeroParams
        = .ok { html := "<html>", Params := zeroContentParams } := by
  refine ⟨by rfl, by rfl⟩

/-! ### The names of a file -/

theorem splitSlash_ne_nil (p : List Char) : splitSlash p ≠ [] := by
  cases p with
  | nil => simp [splitSlash]
  | cons c cs =>
    simp only [splitSlash]
    split_ifs
    · simp
    · split <;> simp

theorem splitSlash_noslash (p : List Char) : ∀ c ∈ splitSlash p, '/' ∉ c := by
  induction p with
  | nil => simp [splitSlash]
  | cons c cs ih =>
    simp only [splitSlash]
    split_ifs with hc
    · intro x hx
      rcases List.mem_cons.1 hx with rfl | hx
      · simp
      · exact ih x hx
    · cases hs : splitSlash cs with
      | nil => exact absurd hs (splitSlash_ne_nil cs)
      | cons y ys =>
        rw [hs] at ih
        intro x hx
        simp only [List.mem_cons] at hx
        rcases hx with rfl | hx
        · have hy := ih y (List.mem_cons_self _ _)
          simp only [List.mem_cons, not_or]
          exact ⟨fun h => hc h.symm, hy⟩
        · exact ih x (List.mem_cons_of_mem _ hx)

theorem splitSlash_of_noslash (p : List Char) (h : '/' ∉ p) : splitSlash p = [p] := by
  induction p with
  | nil => simp [splitSlash]
  | cons c cs ih =>
    simp only [List.mem_cons, not_or] at h
    have hc : ¬ c = '/' := fun hc => h.1 hc.symm
    simp [splitSlash, hc, ih h.2]

theorem splitSlash_append_slash (a b : List Char) :
    splitSlash (a ++ '/' :: b) = splitSlash a ++ splitSlash b := by
  induction a with
  | nil => simp [splitSlash]
  | cons c cs ih =>
    by_cases hc : c = '/'
    · simp [splitSlash, hc, ih]
    · simp only [List.cons_append, splitSlash, hc, if_false]
      have ih2 : splitSlash (cs.append ('/' :: b)) = splitSlash cs ++ splitSlash b := ih
      rw [ih2]
      cases hs : splitSlash cs with
      | nil => exact absurd hs (splitSlash_ne_nil cs)
      | cons y ys => simp

theorem splitSlash_joinSlash (L : List (List Char)) (hne : L ≠ [])
    (hL : ∀ c ∈ L, '/' ∉ c) : splitSlash (joinSlash L) = L := by
  induction L with
  | nil => exact absurd rfl hne
  | cons x rest ih =>
    cases rest with
    | nil => simpa [joinSlash] using splitSlash_of_noslash x (hL x (List.mem_cons_self _ _))
    | cons y ys =>
      simp only [joinSlash]
      rw [splitSlash_append_slash, splitSlash_of_noslash x (hL x (List.mem_cons_self _ _)),
        ih (by simp) (fun c hc => hL c (List.mem_cons_of_mem _ hc))]
      simp

theorem pathClean_eq (p : String) :
    pathClean p = renderPath (rootedPath p.data) (cleanStack p.data) := by
  unfold pathClean
  cases hp : p.data with
  | nil => simp [renderPath, cleanStack, rootedPath, splitSlash, cleanStep, joinSlash]
  | cons c cs => simp [renderPath, cleanStack, rootedPath]

theorem normalComp_step (r : Bool) (S : List (List Char)) (c : List Char)
    (hc : NormalComp c) : cleanStep r S c = c :: S := by
  obtain ⟨h1, h2, h3, _⟩ := hc
  have h3b : ¬ c = ['.', '.'] := h3
  simp [cleanStep, h1, h2, h3b]

theorem dotdot_noslash : '/' ∉ dotdot := by decide

theorem cleanStep_good (r : Bool) (S : List (List Char)) (c : List Char)
    (hS : GoodStack r S) (hc : '/' ∉ c) : GoodStack r (cleanStep r S c) := by
  obtain ⟨n, T, rfl, hT, hr⟩ := hS
  by_cases h1 : c = [] ∨ c = ['.']
  · simp only [cleanStep, h1, if_true]
    exact ⟨n, T, rfl, hT, hr⟩
  · by_cases h2 : c = ['.', '.']
    · subst h2
      cases T with
      | nil =>
        cases n with
        | zero =>
          cases r with
          | true => exact ⟨0, [], by simp [cleanStep], by simp, fun _ => rfl⟩
          | false =>
            exact ⟨1, [], by simp [cleanStep, dotdot, List.replicate], by simp, by simp⟩
        | succ m =>
          have hrf : r = false := by
            cases r with
            | true => exact absurd (hr rfl) (by simp)
            | false => rfl
          subst hrf
          refine ⟨m + 2, [], ?_, by simp, by simp⟩
          simp [cleanStep, dotdot, List.replicate]
      | cons t T1 =>
        have ht : NormalComp t := hT t (List.mem_cons_self _ _)
        have ht2 : ¬ t = ['.', '.'] := ht.2.2.1
        refine ⟨n, T1, ?_, fun x hx => hT x (List.mem_cons_of_mem _ hx), hr⟩
        simp [cleanStep, ht2]
    · have hn : NormalComp c := by
        refine ⟨?_, ?_, h2, hc⟩
        · exact fun h => h1 (Or.inl h)
        · exact fun h => h1 (Or.inr h)
      rw [normalComp_step r _ c hn]
      refine ⟨n, c :: T, by simp, ?_, hr⟩
      intro x hx
      rcases List.mem_cons.1 hx with rfl | hx
      · exact hn
      · exact hT x hx

theorem foldl_cleanStep_good (r : Bool) (cs : List (List Char)) (S : List (List Char))
    (hcs : ∀ c ∈ cs, '/' ∉ c) (hS : GoodStack r S) : GoodStack r (cs.foldl (cleanStep r) S) := by
  induction cs generalizing S with
  | nil => exact hS
  | cons c rest ih =>
    simp only [List.foldl_cons]
    exact ih _ (fun x hx => hcs x (List.mem_cons_of_mem _ hx))
      (cleanStep_good r S c hS (hcs c (List.mem_cons_self _ _)))

theorem cleanStack_good (p : List Char) : GoodStack (rootedPath p) (cleanStack p) :=
  foldl_cleanStep_good _ _ _ (splitSlash_noslash p) ⟨0, [], by simp, by simp, fun _ => rfl⟩

theorem foldl_cleanStep_normal (r : Bool) (L B : List (List Char))
    (hL : ∀ c ∈ L, NormalComp c) : L.foldl (cleanStep r) B = L.reverse ++ B := by
  induction L generalizing B with
  | nil => simp
  | cons c rest ih =>
    simp only [List.foldl_cons, normalComp_step r B c (hL c (List.mem_cons_self _ _))]
    rw [ih _ (fun x hx => hL x (List.mem_cons_of_mem _ hx))]
    simp

theorem foldl_cleanStep_dotdots (m n : Nat) :
    (List.replicate n dotdot).foldl (cleanStep false) (List.replicate m dotdot)
      = List.replicate (m + n) dotdot := by
  induction n generalizing m with
  | zero => simp
  | succ n ih =>
    have hstep : cleanStep false (List.replicate m dotdot) dotdot
        = List.replicate (m + 1) dotdot := by
      cases m with
      | zero => simp [cleanStep, dotdot, List.replicate]
      | succ k => simp [cleanStep, dotdot, List.replicate]
    have hrep : List.replicate (n + 1) dotdot = dotdot :: List.replicate n dotdot := rfl
    rw [hrep, List.foldl_cons, hstep, ih (m + 1)]
    congr 1
    omega

theorem joinSlash_cons_ne (x : List Char) (L : List (List Char)) (hL : L ≠ []) :
    joinSlash (x :: L) = x ++ '/' :: joinSlash L := by
  cases L with
  | nil => exact absurd rfl hL
  | cons y ys => simp [joinSlash]

theorem joinSlash_ne_nil (L : List (List Char)) (hne : L ≠ []) (hL : ∀ c ∈ L, c ≠ []) :
    joinSlash L ≠ [] := by
  cases L with
  | nil => exact absurd rfl hne
  | cons x rest =>
    have hx : x ≠ [] := hL x (List.mem_cons_self _ _)
    cases rest with
    | nil => simpa [joinSlash] using hx
    | cons y ys => simp [joinSlash, hx]

theorem renderPath_false_ne (K : List (List Char)) (h : joinSlash K.reverse ≠ []) :
    renderPath false K = String.mk (joinSlash K.reverse) := by
  simp [renderPath, h]

theorem renderPath_true (K : List (List Char)) :
    renderPath true K = String.mk ('/' :: joinSlash K.reverse) := by
  simp [renderPath]

theorem jsDirName_step : cleanStep false [jsDirName] dotdot = [] := by decide

theorem jsDirName_normal : NormalComp jsDirName := by
  refine ⟨by decide, by decide, by decide, by decide⟩

theorem drop_jsDirName (X : List Char) : (jsDirName ++ '/' :: X).drop 12 = X := by
  simp [jsDirName]

/-- The components kept of `javascripts/` followed by a cleaned relative
path: the leading `..`, if any, takes `javascripts` away. -/
theorem foldl_from_jsDir (n : Nat) (T : List (List Char)) (hT : ∀ c ∈ T, NormalComp c) :
    (List.replicate n dotdot ++ T.reverse).foldl (cleanStep false) [jsDirName]
      = T ++ (if n = 0 then [jsDirName] else List.replicate (n - 1) dotdot) := by
  have hTr : ∀ c ∈ T.reverse, NormalComp c := fun c hc => hT c (List.mem_reverse.1 hc)
  rw [List.foldl_append]
  cases n with
  | zero =>
    simp only [List.replicate_zero, List.foldl_nil, if_true]
    rw [foldl_cleanStep_normal false _ _ hTr]
    simp
  | succ m =>
    have hrep : List.replicate (m + 1) dotdot = dotdot :: List.replicate m dotdot := rfl
    rw [hrep, List.foldl_cons, jsDirName_step]
    have h0 := foldl_cleanStep_dotdots 0 m
    simp only [List.replicate_zero, Nat.zero_add] at h0
    rw [h0, foldl_cleanStep_normal false _ _ hTr]
    simp

/-- A cleaned path is one of the aliases of the path `javascripts/` joined
with it cleans to. -/
theorem alias_of_good (r : Bool) (S : List (List Char)) (hS : GoodStack r S) :
    renderPath r S ∈ aliases (renderPath false
      ((splitSlash (renderPath r S).data).foldl (cleanStep false) [jsDirName])) := by
  obtain ⟨n, T, rfl, hT, hr⟩ := hS
  have hrev : (T ++ List.replicate n dotdot).reverse = List.replicate n dotdot ++ T.reverse := by
    simp [List.reverse_append]
  have hTr : ∀ c ∈ T.reverse, NormalComp c := fun c hc => hT c (List.mem_reverse.1 hc)
  have hLslash : ∀ c ∈ List.replicate n dotdot ++ T.reverse, '/' ∉ c := by
    intro c hc
    rcases List.mem_append.1 hc with h | h
    · rw [(List.mem_replicate.1 h).2]; exact dotdot_noslash
    · exact (hTr c h).2.2.2
  have hLne : ∀ c ∈ List.replicate n dotdot ++ T.reverse, c ≠ [] := by
    intro c hc
    rcases List.mem_append.1 hc with h | h
    · rw [(List.mem_replicate.1 h).2]; decide
    · exact (hTr c h).1
  cases r with
  | true =>
    have hn : n = 0 := hr rfl
    subst hn
    simp only [List.replicate_zero, List.append_nil, List.nil_append] at hrev hLslash hLne ⊢
    rw [renderPath_true]
    simp only [splitSlash, if_true]
    cases hTe : T with
    | nil =>
      have hk : renderPath false
          (List.foldl (cleanStep false) [jsDirName]
            ([] :: splitSlash (joinSlash ([] : List (List Char)).reverse)))
          = String.mk jsDirName := by decide
      rw [hk]
      simp [aliases, joinSlash]
    | cons t T1 =>
      rw [← hTe]
      have hTne : T.reverse ≠ [] := by simp [hTe]
      rw [splitSlash_joinSlash _ hTne hLslash, List.foldl_cons]
      have hskip : cleanStep false [jsDirName] [] = [jsDirName] := by decide
      rw [hskip, foldl_cleanStep_normal false _ _ hTr, List.reverse_reverse]
      have hj : joinSlash (T ++ [jsDirName]).reverse
          = jsDirName ++ '/' :: joinSlash T.reverse := by
        rw [List.reverse_append]
        exact joinSlash_cons_ne _ _ hTne
      rw [renderPath_false_ne _ (by rw [hj]; simp [jsDirName]), hj]
      simp [aliases, drop_jsDirName]
  | false =>
    by_cases hLe : List.replicate n dotdot ++ T.reverse = []
    · have hs : renderPath false (T ++ List.replicate n dotdot) = "." := by
        simp [renderPath, hrev, hLe, joinSlash]
      rw [hs]
      simp [aliases]
    · have hjne := joinSlash_ne_nil _ hLe hLne
      have hs : renderPath false (T ++ List.replicate n dotdot)
          = String.mk (joinSlash (List.replicate n dotdot ++ T.reverse)) := by
        rw [renderPath_false_ne _ (by rw [hrev]; exact hjne), hrev]
      rw [hs]
      simp only []
      rw [splitSlash_joinSlash _ hLe hLslash, foldl_from_jsDir n T hT]
      cases n with
      | zero =>
        simp only [List.replicate_zero, List.nil_append, if_true] at hLe ⊢
        have hj : joinSlash (T ++ [jsDirName]).reverse
            = jsDirName ++ '/' :: joinSlash T.reverse := by
          rw [List.reverse_append]
          exact joinSlash_cons_ne _ _ hLe
        rw [renderPath_false_ne _ (by rw [hj]; simp [jsDirName]), hj]
        simp [aliases, drop_jsDirName]
      | succ m =>
        have hrep : List.replicate (m + 1) dotdot = dotdot :: List.replicate m dotdot := rfl
        have hif : (if m + 1 = 0 then [jsDirName] else List.replicate (m + 1 - 1) dotdot)
            = List.replicate m dotdot := by simp
        rw [hif]
        have hrev2 : (T ++ List.replicate m dotdot).reverse
            = List.replicate m dotdot ++ T.reverse := by
          simp [List.reverse_append]
        by_cases hL2 : List.replicate m dotdot ++ T.reverse = []
        · have h1 : joinSlash (List.replicate (m + 1) dotdot ++ T.reverse) = dotdot := by
            rw [hrep, List.cons_append, hL2]
            rfl
          rw [h1]
          have h2 : String.mk dotdot = ".." := by decide
          rw [h2]
          simp [aliases]
        · have hne2 : ∀ c ∈ List.replicate m dotdot ++ T.reverse, c ≠ [] := by
            intro c hc
            apply hLne c
            rw [hrep, List.cons_append]
            exact List.mem_cons_of_mem _ hc
          have hj2 := joinSlash_ne_nil _ hL2 hne2
          rw [renderPath_false_ne _ (by rw [hrev2]; exact hj2), hrev2]
          have h1 : joinSlash (List.replicate (m + 1) dotdot ++ T.reverse)
              = dotdot ++ '/' :: joinSlash (List.replicate m dotdot ++ T.reverse) := by
            rw [hrep, List.cons_append]
            exact joinSlash_cons_ne _ _ hL2
          rw [h1]
          have h3 : String.mk (dotdot ++ '/' :: joinSlash (List.replicate m dotdot ++ T.reverse))
              = "../" ++ String.mk (joinSlash (List.replicate m dotdot ++ T.reverse)) := by
            apply String.ext
            simp [dotdot]
          rw [h3]
          simp [aliases]

theorem scriptPath_clean (s : String) :
    scriptPath s = renderPath false
      ((splitSlash s.data).foldl (cleanStep false) [jsDirName]) := by
  have hne : ("javascripts" : String) ≠ "" := by decide
  have hd : ("javascripts" ++ "/" ++ s : String).data = jsDirName ++ '/' :: s.data := by
    simp [String.data_append, jsDirName]
  have hstep : cleanStep false [] jsDirName = [jsDirName] := by decide
  simp only [scriptPath, filepathJoin, hne, ne_eq, not_false_eq_true, if_true]
  rw [pathClean_eq, hd]
  have hroot : rootedPath (jsDirName ++ '/' :: s.data) = false := by
    simp [jsDirName, rootedPath]
  rw [hroot, cleanStack, hroot, splitSlash_append_slash,
    splitSlash_of_noslash jsDirName jsDirName_normal.2.2.2, List.foldl_append]
  simp only [List.foldl_cons, List.foldl_nil, hstep]

/-- Every name `path.Clean` returns is one of the aliases of the path it
opens. -/
theorem alias_of_clean (x : String) : pathClean x ∈ aliases (scriptPath (pathClean x)) := by
  rw [scriptPath_clean, pathClean_eq]
  exact alias_of_good _ _ (cleanStack_good x.data)

theorem mem_aliasNames (keys : List String) (k s : String) (hk : k ∈ keys)
    (hs : s ∈ aliases k) : s ∈ aliasNames keys := by
  induction keys with
  | nil => simp at hk
  | cons k1 rest ih =>
    simp only [aliasNames, List.mem_append]
    rcases List.mem_cons.1 hk with rfl | hk
    · exact Or.inl hs
    · exact Or.inr (ih hk)

theorem length_aliasNames (keys : List String) :
    (aliasNames keys).length = 6 * keys.length := by
  induction keys with
  | nil => rfl
  | cons k rest ih =>
    simp only [aliasNames, List.length_append, ih, List.length_cons]
    simp only [aliases, List.length_cons, List.length_nil]
    omega

theorem lookup_filterMap_names (names : List String) (g : String → Option (List String))
    (s : String) :
    List.lookup s (names.filterMap fun n => (g n).map fun v => (n, v))
      = if s ∈ names then g s else none := by
  induction names with
  | nil => simp
  | cons n rest ih =>
    cases hg : g n with
    | none =>
      simp only [List.filterMap_cons, hg, Option.map_none', ih, List.mem_cons]
      by_cases hsn : s = n
      · subst hsn
        simp [hg]
      · simp [hsn]
    | some v =>
      simp only [List.filterMap_cons, hg, Option.map_some', List.mem_cons]
      by_cases hsn : s = n
      · subst hsn
        simp [List.lookup, hg]
      · have hb : (s == n) = false := by simpa using hsn
        simp only [List.lookup, hb, ih, hsn, false_or]

/-- The view by source name opens, for the entry and for every cleaned
name, what the source tree opens at `path.Join("javascripts", name)`. -/
theorem scripts_open (pfs : PathFS) (entry s : String)
    (hs : s = entry ∨ ∃ x, s = pathClean x) :
    (pfs.scripts entry).open s = pfs.openScript s := by
  unfold PathFS.scripts FileSystem.open
  rw [lookup_filterMap_names]
  split_ifs with hmem
  · rfl
  · cases ho : pfs.openScript s with
    | none => rfl
    | some lines =>
      exfalso
      apply hmem
      rcases hs with rfl | ⟨x, rfl⟩
      · exact List.mem_cons_self _ _
      · apply List.mem_cons_of_mem
        have hk : scriptPath (pathClean x) ∈ pfs.map Prod.fst :=
          @mem_keys_of_open pfs (scriptPath (pathClean x)) lines ho
        exact mem_aliasNames _ _ _ hk (alias_of_clean x)

theorem length_scripts_le (pfs : PathFS) (entry : String) :
    (pfs.scripts entry).length < budget pfs := by
  unfold PathFS.scripts budget
  have h1 := List.length_filterMap_le
    (fun s => (pfs.openScript s).map fun ls => (s, ls)) (entry :: aliasNames (pfs.map Prod.fst))
  simp only [List.length_cons, length_aliasNames, List.length_map] at h1
  omega

theorem scanLines_congr (rec1 rec2 : String → LoadState → Except LoadError LoadState)
    (dir : String) (h : ∀ m st, rec1 (required dir m) st = rec2 (required dir m) st)
    (ls : List String) (flg : Bool) (st : LoadState) :
    scanLines rec1 dir ls flg st = scanLines rec2 dir ls flg st := by
  induction ls generalizing flg st with
  | nil => rfl
  | cons l rest ih =>
    cases flg with
    | false => simp only [scanLines, Bool.false_eq_true, if_false]; exact ih _ _
    | true =>
      simp only [scanLines, if_true]
      cases hm : jsReqRE l with
      | none => simp only []; exact ih _ _
      | some m =>
        simp only [h m st]
        cases rec2 (required dir m) st with
        | error e => rfl
        | ok st1 => simp only []; exact ih _ _

/-- The function `loadJS` over the source tree by path is `loadJS` over the
view by source name, for the entry and for every cleaned name. -/
theorem loadJSPath_eq (pfs : PathFS) (entry : String) (fuel : Nat) (s : String)
    (st : LoadState) (hs : s = entry ∨ ∃ x, s = pathClean x) :
    loadJSPath pfs fuel s st = loadJS (pfs.scripts entry) fuel s st := by
  induction fuel generalizing s st with
  | zero => rfl
  | succ fuel ih =>
    simp only [loadJSPath, loadJS, scripts_open pfs entry s hs]
    split_ifs
    · rfl
    · cases pfs.openScript s with
      | none => rfl
      | some lines =>
        simp only []
        exact scanLines_congr _ _ _ (fun m st1 => ih _ _ (Or.inr ⟨_, rfl⟩)) _ _ _

/-! ### The bundler over the paths it opens -/

theorem cleaned_of_mem_requiresPath {pfs : PathFS} {f g : String}
    (h : g ∈ requiresPath pfs f) : ∃ x, g = pathClean x := by
  unfold requiresPath at h
  cases ho : pfs.openScript f with
  | none => simp [ho] at h
  | some lines =>
    simp only [ho, List.mem_map] at h
    obtain ⟨m, _, rfl⟩ := h
    exact ⟨_, rfl⟩

theorem requires_scripts (pfs : PathFS) (entry f : String)
    (hf : f = entry ∨ ∃ x, f = pathClean x) :
    requires (pfs.scripts entry) f = requiresPath pfs f
      ∧ body (pfs.scripts entry) f = bodyPath pfs f := by
  simp only [requires, body, requiresPath, bodyPath, scripts_open pfs entry f hf]
  exact ⟨trivial, trivial⟩

theorem reachPath_cleaned {pfs : PathFS} {entry f : String} (h : ReachPath pfs entry f) :
    f = entry ∨ ∃ x, f = pathClean x := by
  induction h with
  | refl => exact Or.inl rfl
  | tail _ hbc _ => exact Or.inr (cleaned_of_mem_requiresPath hbc)

theorem reach_scripts_iff (pfs : PathFS) (entry f : String) :
    Reach (pfs.scripts entry) entry f ↔ ReachPath pfs entry f := by
  constructor
  · intro h
    induction h with
    | refl => exact Relation.ReflTransGen.refl
    | tail _ hbc ih =>
      refine Relation.ReflTransGen.tail ih ?_
      have hb := reachPath_cleaned ih
      have := (requires_scripts pfs entry _ hb).1
      unfold Edge at hbc
      rw [this] at hbc
      exact hbc
  · intro h
    induction h with
    | refl => exact Relation.ReflTransGen.refl
    | tail hab hbc ih =>
      refine Relation.ReflTransGen.tail ih ?_
      have hb := reachPath_cleaned hab
      have := (requires_scripts pfs entry _ hb).1
      unfold Edge
      rw [this]
      exact hbc

theorem loadAll_no_openFailed_from {fs : FileSystem} {entry : String} {fuel : Nat}
    (ih : ∀ source st e, Reach fs entry source → (fs.open source).isSome = true →
      loadJS fs fuel source st = .error e → e = .outOfFuel)
    (rs : List String)
    (hrs : ∀ r ∈ rs, Reach fs entry r ∧ (fs.open r).isSome = true) (st : LoadState)
    (e : LoadError) (h : loadAll (loadJS fs fuel) rs st = .error e) : e = .outOfFuel := by
  induction rs generalizing st with
  | nil => simp [loadAll] at h
  | cons r rs ihr =>
    simp only [loadAll] at h
    cases hr : loadJS fs fuel r st with
    | error e1 =>
      simp only [hr, Except.error.injEq] at h
      obtain ⟨h1, h2⟩ := hrs r (List.mem_cons_self _ _)
      exact h ▸ ih r st e1 h1 h2 hr
    | ok st2 =>
      simp only [hr] at h
      exact ihr (fun x hx => hrs x (List.mem_cons_of_mem _ hx)) st2 h

/-- When every file required by a name reachable from the entry exists, a
call on a reachable, existing file can only fail by exhausting the budget. -/
theorem loadJS_no_openFailed_from (fs : FileSystem) (entry : String)
    (hclosed : ∀ f g, Reach fs entry f → Edge fs f g → (fs.open g).isSome = true)
    (fuel : Nat) (source : String) (st : LoadState) (e : LoadError)
    (hreach : Reach fs entry source) (hopen : (fs.open source).isSome = true)
    (h : loadJS fs fuel source st = .error e) : e = .outOfFuel := by
  induction fuel generalizing source st e with
  | zero => simpa [loadJS] using h.symm
  | succ fuel ih =>
    by_cases hold : source ∈ st.loaded
    · simp [loadJS_succ_old fs fuel source st hold] at h
    · rw [loadJS_succ_new fs fuel source st hold hopen] at h
      exact loadAll_no_openFailed_from (fun s t e1 hs ho he => ih s t e1 hs ho he) _
        (fun r hr => ⟨Relation.ReflTransGen.tail hreach hr, hclosed source r hreach hr⟩)
        _ e (thenWrite_eq_error h)

/-- The files a whole run wrote are exactly the names reachable from the
entry. -/
theorem visit_reach_iff {fs : FileSystem} {entry : String} {st : LoadState}
    {order init : List String}
    (hv : Visit fs [entry] { buffer := "", loaded := [] } st order)
    (hinit : order = init ++ [entry]) (f : String) :
    f ∈ order ↔ Reach fs entry f := by
  constructor
  · intro hf
    obtain ⟨r, hr, hreach⟩ := hv.reach f hf
    have : r = entry := by simpa using hr
    exact this ▸ hreach
  · intro hreach
    induction hreach with
    | refl => simp [hinit]
    | tail _ hbc ih =>
      rcases hv.edges _ ih _ hbc with h | ⟨h, _⟩
      · simp at h
      · exact h

/-- The budget of a source tree is never exhausted. -/
theorem loadJSPath_fuel_ok (pfs : PathFS) (entry : String) (st : LoadState) (k : Nat) :
    loadJSPath pfs (budget pfs + k) entry st ≠ .error .outOfFuel := by
  rw [loadJSPath_eq pfs entry _ entry st (Or.inl rfl)]
  apply loadJS_fuel_ok
  have h1 := pending_le_length (pfs.scripts entry) st.loaded
  have h2 := length_scripts_le pfs entry
  omega

/-- Over the view by source name, the budget of the source tree gives the
result of `bundle`. -/
theorem bundlePath_eq_bundle (pfs : PathFS) (entry : String) :
    bundlePath pfs entry = bundle (pfs.scripts entry) entry := by
  unfold bundlePath
  rw [loadJSPath_eq pfs entry _ entry _ (Or.inl rfl)]
  have hb : bundle (pfs.scripts entry) entry ≠ .error .outOfFuel := by
    unfold bundle
    exact loadJS_fuel_ok _ _ entry _ (Nat.lt_succ_of_le (pending_le_length _ _))
  have hm : loadJS (pfs.scripts entry) (budget pfs) entry { buffer := "", loaded := [] }
      ≠ .error .outOfFuel := by
    apply loadJS_fuel_ok
    have h1 := pending_le_length (pfs.scripts entry) ([] : List String)
    have h2 := length_scripts_le pfs entry
    simp only at h1 ⊢
    omega
  exact loadJS_fuel_agree _ _ _ entry _ _ rfl hb hm

/-- A successful call on a name that is not yet included appends the name
to the included list. -/
theorem loadJS_appends (fs : FileSystem) (fuel : Nat) (source : String) (st st1 : LoadState)
    (hnew : source ∉ st.loaded) (h : loadJS fs (fuel + 1) source st = .ok st1) :
    ∃ rest, st1.loaded = st.loaded ++ source :: rest := by
  cases ho : fs.open source with
  | none => simp [loadJS_succ_missing fs fuel source st hnew ho] at h
  | some lines =>
    rw [loadJS_succ_new fs fuel source st hnew (by simp [ho])] at h
    obtain ⟨st2, h2, rfl⟩ := thenWrite_eq_ok h
    obtain ⟨o, hv⟩ := @loadAll_visit fs _
      (fun r s s1 hr => (loadJS_visit fs fuel r s s1 hr).imp fun _ hx => hx.1) _ _ _ h2
    obtain ⟨pre, hp, _⟩ := hv.loaded_eq
    exact ⟨pre, by simp [hp]⟩

/-! ### Claims on termination and on the files of a bundle -/

/-- C2, the claim as stated fails: in `aliasCycle` the file `a.js` requires
`b.js` and `b.js` requires `a.js`, naming it `../javascripts/a`. The name
that directive resolves to opens the file of `a.js` but is not the name
`a.js` was included under, so both files are bundled a second time: the
result is not `body b ++ body a`. -/
theorem loadJS_alias_cycle :
    requiresPath aliasCycle "a.js" = ["b.js"]
      ∧ requiresPath aliasCycle "b.js" = ["../javascripts/a.js"]
      ∧ scriptPath "../javascripts/a.js" = scriptPath "a.js"
      ∧ bundlePath aliasCycle "a.js"
        = .ok { buffer := "var b;\nvar a;\nvar b;\nvar a;\n",
                loaded := ["a.js", "b.js", "../javascripts/a.js", "../javascripts/b.js"] }
      ∧ bodyPath aliasCycle "b.js" ++ bodyPath aliasCycle "a.js" = "var b;\nvar a;\n"
      ∧ "var b;\nvar a;\nvar b;\nvar a;\n"
        ≠ bodyPath aliasCycle "b.js" ++ bodyPath aliasCycle "a.js" := by
  refine ⟨by decide, by decide, by decide, by rfl, by decide, by decide⟩

/-- C2, amended: `loadJS` terminates on every finite source tree, cycles
included: a recursion budget of six names for each file, plus two, is never
exhausted, and every larger budget gives the same result; a call on an
included name returns the state unchanged, any other successful call appends
the name to the included list; for a cycle in which the entry requires `b`
and the directive of `b` resolves to the name of the entry, the bundle is
`body b ++ body entry`. -/
theorem loadJS_terminates (pfs : PathFS) (entry : String) (st : LoadState) :
    (∃ r, r ≠ .error .outOfFuel ∧ ∀ k, loadJSPath pfs (budget pfs + k) entry st = r)
      ∧ (∀ fuel, entry ∈ st.loaded → loadJSPath pfs (fuel + 1) entry st = .ok st)
      ∧ (∀ fuel st1, entry ∉ st.loaded → loadJSPath pfs (fuel + 1) entry st = .ok st1 →
          ∃ rest, st1.loaded = st.loaded ++ entry :: rest)
      ∧ (∀ b, entry ≠ b → requiresPath pfs entry = [b] → requiresPath pfs b = [entry] →
          bundlePath pfs entry
            = .ok { buffer := bodyPath pfs b ++ bodyPath pfs entry, loaded := [entry, b] }) := by
  refine ⟨⟨loadJSPath pfs (budget pfs) entry st, ?_, ?_⟩, ?_, ?_, ?_⟩
  · exact loadJSPath_fuel_ok pfs entry st 0
  · intro k
    rw [loadJSPath_eq pfs entry _ entry st (Or.inl rfl),
      loadJSPath_eq pfs entry _ entry st (Or.inl rfl)]
    refine loadJS_fuel_mono _ _ k entry st _ rfl ?_
    rw [← loadJSPath_eq pfs entry _ entry st (Or.inl rfl)]
    exact loadJSPath_fuel_ok pfs entry st 0
  · intro fuel hold
    simp [loadJSPath, hold]
  · intro fuel st1 hnew h
    rw [loadJSPath_eq pfs entry _ entry st (Or.inl rfl)] at h
    exact loadJS_appends _ fuel entry st st1 hnew h
  · intro b hne ha hb
    have hbc : b = entry ∨ ∃ x, b = pathClean x :=
      Or.inr (@cleaned_of_mem_requiresPath pfs entry b (by simp [ha]))
    obtain ⟨ra, ba⟩ := requires_scripts pfs entry entry (Or.inl rfl)
    obtain ⟨rb, bb⟩ := requires_scripts pfs entry b hbc
    rw [bundlePath_eq_bundle, ← ba, ← bb]
    exact bundle_cycle _ entry b hne (ra.trans ha) (rb.trans hb)

/-- Witness of the amended C2 on the cycle `a.js`, `b.js`. -/
theorem loadJS_terminates_witness :
    "a.js" ≠ "b.js" ∧ requiresPath cycleTree "a.js" = ["b.js"]
      ∧ requiresPath cycleTree "b.js" = ["a.js"]
      ∧ bundlePath cycleTree "a.js"
          = .ok { buffer := bodyPath cycleTree "b.js" ++ bodyPath cycleTree "a.js",
                  loaded := ["a.js", "b.js"] }
      ∧ bodyPath cycleTree "b.js" ++ bodyPath cycleTree "a.js" = "var b;\nvar a;\n" :=
  ⟨by decide, by decide, by decide,
    (loadJS_terminates cycleTree "a.js" { buffer := "", loaded := [] }).2.2.2 "b.js"
      (by decide) (by decide) (by decide),
    by decide⟩

theorem fileBody_aliasTwice_length (k : String) :
    (fileBody aliasTwice k).length
      ≤ 7 * ((if k = "javascripts/a.js" then 1 else 0)
          + (if k = "javascripts/b.js" then 1 else 0)) := by
  by_cases ha : k = "javascripts/a.js"
  · subst ha; decide
  · by_cases hb : k = "javascripts/b.js"
    · subst hb; decide
    · have h1 : (k == "javascripts/a.js") = false := by simpa using ha
      have h2 : (k == "javascripts/b.js") = false := by simpa using hb
      simp [fileBody, aliasTwice, List.lookup, h1, h2, ha, hb]

theorem concat_aliasTwice_length (files : List String) :
    (concatS (files.map (fileBody aliasTwice))).length
      ≤ 7 * (files.count "javascripts/a.js" + files.count "javascripts/b.js") := by
  induction files with
  | nil => simp [concatS]
  | cons k rest ih =>
    have hk := fileBody_aliasTwice_length k
    simp only [List.map_cons, concatS, String.length_append]
    have ca : (k :: rest).count "javascripts/a.js"
        = rest.count "javascripts/a.js" + (if k = "javascripts/a.js" then 1 else 0) := by
      by_cases h : k = "javascripts/a.js"
      · subst h; simp
      · simp [h, List.count_cons_of_ne (Ne.symm h)]
    have cb : (k :: rest).count "javascripts/b.js"
        = rest.count "javascripts/b.js" + (if k = "javascripts/b.js" then 1 else 0) := by
      by_cases h : k = "javascripts/b.js"
      · subst h; simp
      · simp [h, List.count_cons_of_ne (Ne.symm h)]
    rw [ca, cb]
    omega

/-- C3, the claim as stated fails: in `aliasTwice` every required file
exists, and `a.js` requires the file `b.js` under the two names
`../javascripts/b` and `b`. Both names open the path `javascripts/b.js`, and
the body of that file is written twice: the bundle is the concatenation of
the bodies of no duplicate-free list of files. -/
theorem bundle_alias_twice :
    requiresPath aliasTwice "a.js" = ["../javascripts/b.js", "b.js"]
      ∧ scriptPath "../javascripts/b.js" = "javascripts/b.js"
      ∧ scriptPath "b.js" = "javascripts/b.js"
      ∧ (aliasTwice.openScript "../javascripts/b.js").isSome = true
      ∧ (aliasTwice.openScript "b.js").isSome = true
      ∧ bundlePath aliasTwice "a.js"
        = .ok { buffer := "var b;\nvar b;\nvar a;\n",
                loaded := ["a.js", "../javascripts/b.js", "b.js"] }
      ∧ "var b;\nvar b;\nvar a;\n"
        = fileBody aliasTwice "javascripts/b.js" ++ (fileBody aliasTwice "javascripts/b.js"
            ++ fileBody aliasTwice "javascripts/a.js")
      ∧ ¬ ∃ files : List String, files.Nodup
          ∧ concatS (files.map (fileBody aliasTwice)) = "var b;\nvar b;\nvar a;\n" := by
  refine ⟨by decide, by decide, by decide, by decide, by decide, by rfl, by decide, ?_⟩
  rintro ⟨files, hnd, heq⟩
  have hlen := concat_aliasTwice_length files
  have h1 := List.nodup_iff_count_le_one.1 hnd "javascripts/a.js"
  have h2 := List.nodup_iff_count_le_one.1 hnd "javascripts/b.js"
  rw [heq] at hlen
  have h21 : ("var b;\nvar b;\nvar a;\n" : String).length = 21 := by decide
  rw [h21] at hlen
  omega

/-- C3, amended: when every file required by a name reachable from the
entry exists and no file is reachable under two names, the bundle of an
existing entry is the concatenation of the bodies of a list of names that is
duplicate-free, also as a list of files (paths), whose members are exactly
the names reachable from the entry through require directives, and whose
last member is the entry: no file's body is written twice. -/
theorem bundle_reachable_once (pfs : PathFS) (entry : String)
    (hentry : (pfs.openScript entry).isSome = true)
    (hclosed : ∀ f g, ReachPath pfs entry f → g ∈ requiresPath pfs f →
      (pfs.openScript g).isSome = true)
    (hnames : ∀ f g, ReachPath pfs entry f → ReachPath pfs entry g →
      scriptPath f = scriptPath g → f = g) :
    ∃ (st : LoadState) (order : List String), bundlePath pfs entry = .ok st
      ∧ st.buffer = concatS (order.map (bodyPath pfs))
      ∧ st.buffer = concatS ((order.map scriptPath).map (fileBody pfs))
      ∧ order.Nodup
      ∧ (order.map scriptPath).Nodup
      ∧ (∀ f, f ∈ order ↔ ReachPath pfs entry f)
      ∧ order.getLast? = some entry := by
  have hcl : ∀ f, ReachPath pfs entry f → (f = entry ∨ ∃ x, f = pathClean x) :=
    fun f hf => reachPath_cleaned hf
  have hopen : ((pfs.scripts entry).open entry).isSome = true := by
    rw [scripts_open pfs entry entry (Or.inl rfl)]; exact hentry
  have hclosed2 : ∀ f g, Reach (pfs.scripts entry) entry f → Edge (pfs.scripts entry) f g →
      ((pfs.scripts entry).open g).isSome = true := by
    intro f g hf hfg
    have hf2 := (reach_scripts_iff pfs entry f).1 hf
    have hg : g ∈ requiresPath pfs f := by
      have := (requires_scripts pfs entry f (hcl f hf2)).1
      unfold Edge at hfg
      rw [this] at hfg
      exact hfg
    rw [scripts_open pfs entry g (Or.inr (cleaned_of_mem_requiresPath hg))]
    exact hclosed f g hf2 hg
  cases hb : bundlePath pfs entry with
  | error e =>
    exfalso
    have hb2 := hb
    unfold bundlePath at hb2
    rw [loadJSPath_eq pfs entry _ entry _ (Or.inl rfl)] at hb2
    have he := loadJS_no_openFailed_from _ entry hclosed2 _ entry _ e
      Relation.ReflTransGen.refl hopen hb2
    subst he
    exact loadJSPath_fuel_ok pfs entry _ 0 hb
  | ok st =>
    have hb2 := hb
    unfold bundlePath at hb2
    rw [loadJSPath_eq pfs entry _ entry _ (Or.inl rfl)] at hb2
    obtain ⟨order, hv, hlast⟩ := loadJS_visit _ _ entry _ st hb2
    obtain ⟨init, hinit⟩ := hlast (by simp)
    have hmem : ∀ f, f ∈ order ↔ ReachPath pfs entry f := fun f =>
      (visit_reach_iff hv hinit f).trans (reach_scripts_iff pfs entry f)
    have hbody : order.map (body (pfs.scripts entry)) = order.map (bodyPath pfs) := by
      apply List.map_congr_left
      intro f hf
      exact (requires_scripts pfs entry f (hcl f ((hmem f).1 hf))).2
    have hbuf : st.buffer = concatS (order.map (bodyPath pfs)) := by
      rw [← hbody]
      simpa using hv.buffer_eq
    refine ⟨st, order, rfl, hbuf, ?_, hv.nodup, ?_, hmem, by simp [hinit]⟩
    · rw [hbuf, List.map_map]
      rfl
    · refine hv.nodup.map_on ?_
      intro f hf g hg hfg
      exact hnames f g ((hmem f).1 hf) ((hmem g).1 hg) hfg

theorem reachPath_subset (pfs : PathFS) (entry : String) (names : List String)
    (hentry : entry ∈ names)
    (hstep : ∀ f ∈ names, ∀ g ∈ requiresPath pfs f, g ∈ names)
    (f : String) (h : ReachPath pfs entry f) : f ∈ names := by
  induction h with
  | refl => exact hentry
  | tail _ hbc ih => exact hstep _ ih _ hbc

theorem diamondTree_closed :
    ∀ f ∈ diamondNames, ∀ g ∈ requiresPath diamondTree f,
      g ∈ diamondNames ∧ (diamondTree.openScript g).isSome = true := by
  decide

theorem diamondTree_reach (f : String) (h : ReachPath diamondTree "a.js" f) :
    f ∈ diamondNames :=
  reachPath_subset diamondTree "a.js" diamondNames (by decide)
    (fun a ha b hb => (diamondTree_closed a ha b hb).1) f h

theorem diamondTree_names :
    ∀ f ∈ diamondNames, ∀ g ∈ diamondNames, scriptPath f = scriptPath g → f = g := by
  decide

/-- Witness of the amended C3 on a diamond with a back edge. -/
theorem bundle_reachable_once_witness :
    (diamondTree.openScript "a.js").isSome = true
      ∧ (∀ f g, ReachPath diamondTree "a.js" f → g ∈ requiresPath diamondTree f →
          (diamondTree.openScript g).isSome = true)
      ∧ (∀ f g, ReachPath diamondTree "a.js" f → ReachPath diamondTree "a.js" g →
          scriptPath f = scriptPath g → f = g)
      ∧ bundlePath diamondTree "a.js"
          = .ok { buffer := "var d;\nvar b;\nvar c;\nvar a;\n",
                  loaded := ["a.js", "b.js", "lib/d.js", "c.js"] }
      ∧ ∃ (st : LoadState) (order : List String), bundlePath diamondTree "a.js" = .ok st
          ∧ st.buffer = concatS (order.map (bodyPath diamondTree))
          ∧ st.buffer = concatS ((order.map scriptPath).map (fileBody diamondTree))
          ∧ order.Nodup
          ∧ (order.map scriptPath).Nodup
          ∧ (∀ f, f ∈ order ↔ ReachPath diamondTree "a.js" f)
          ∧ order.getLast? = some "a.js" :=
  ⟨by decide,
    fun f g hf hg => (diamondTree_closed f (diamondTree_reach f hf) g hg).2,
    fun f g hf hg => diamondTree_names f (diamondTree_reach f hf) g (diamondTree_reach g hg),
    by rfl,
    bundle_reachable_once diamondTree "a.js" (by decide)
      (fun f g hf hg => (diamondTree_closed f (diamondTree_reach f hf) g hg).2)
      (fun f g hf hg =>
        diamondTree_names f (diamondTree_reach f hf) g (diamondTree_reach g hg))⟩

end Slate
